import Mathlib

/-
Verification development for the ecg-miner digitisation core.

The Python sources are shallowly embedded below:
  * `Miner.Img`, `Miner.getClusters`, `Miner.gap`, the DP tracer
    (`Miner.colStep`, `Miner.dpCache`), the backtracking
    (`Miner.traceFor`) and `Miner.extractSignals` embed
    src/digitization/SignalExtractor.py;
  * `Miner.segment` embeds Postprocessor.__segment and
    `Miner.vectorize` embeds Postprocessor.__vectorize
    (src/digitization/PostProcessor.py);
  * `Miner.binarize`, `Miner.outlineBorders` and
    `Miner.gridlineRemovalCore` embed the corresponding methods of
    src/digitization/PreProcessor.py together with
    Image.threshold of src/utils/graphics/Image.py.

Python floats are modelled by exact rationals.  Standard deviations are
modelled by variances: the square root is strictly monotone, so every
comparison that the Python code performs on standard deviations has the
same outcome on the corresponding variances.
-/

set_option allowUnsafeReducibility true
attribute [local semireducible] Rat.add Rat.mul Rat.div Rat.sub Rat.neg Rat.inv
set_option maxRecDepth 100000

namespace Miner

/-- A point of the chart: x is the column, y the row (pixel coordinates),
embedding utils/graphics/Point.py for the values the extractor produces. -/
structure Pt where
  x : ℕ
  y : ℕ
deriving DecidableEq, Repr

/-- A grayscale raster: a list of pixel rows, embedding the GRAY `Image`
buffer of utils/graphics/Image.py. -/
structure Img where
  data : List (List ℕ)
deriving DecidableEq, Repr

def Img.height (img : Img) : ℕ := img.data.length

def Img.width (img : Img) : ℕ := (img.data.headD []).length

def Img.px (img : Img) (r c : ℕ) : ℕ := (img.data.getD r []).getD c 255

/-- Maximal runs of consecutive integers: the `groupby` of
SignalExtractor.__get_clusters, applied to the ascending list of black
row indices of one column. -/
def runs : List ℕ → List (List ℕ)
  | [] => []
  | a :: rest =>
    match runs rest with
    | [] => [[a]]
    | [] :: rs => [a] :: [] :: rs
    | (b :: t) :: rs =>
      if a + 1 = b then (a :: b :: t) :: rs else [a] :: (b :: t) :: rs

abbrev Cluster := List ℕ

/-- SignalExtractor.__get_clusters: maximal runs of consecutive black
(pixel value 0) rows of one column, top to bottom. -/
def getClusters (img : Img) (col : ℕ) : List Cluster :=
  runs ((List.range img.height).filter (fun r => img.px r col = 0))

def clusterLo (c : Cluster) : ℕ := c.headD 0

def clusterHi (c : Cluster) : ℕ := c.getLastD 0

/-- `ceil(mean(cluster))` with `mean c = (c[0] + c[-1]) / 2`, as used
throughout SignalExtractor. -/
def ctrOf (c : Cluster) : ℕ := (clusterLo c + clusterHi c + 1) / 2

/-- SignalExtractor.__gap: `len(range(pc_max + 1, c_min))` in the first
branch and `len(range(c_max + 1, pc_min))` in the second; truncated
subtraction matches the length of an empty descending range. -/
def gap (pc c : Cluster) : ℕ :=
  if clusterLo pc ≤ clusterLo c ∧ clusterHi pc ≤ clusterHi c then
    clusterLo c - (clusterHi pc + 1)
  else if clusterLo c ≤ clusterLo pc ∧ clusterHi c ≤ clusterHi pc then
    clusterLo pc - (clusterHi c + 1)
  else 0

/-- A key of the DP cache: `(column, cluster)` as in the Python dict. -/
abbrev CKey := ℕ × Cluster

/-- One cached quadruple `(y, prev, len, score)`. -/
structure Cell where
  y : ℕ
  prev : Option CKey
  len : ℕ
  score : ℚ
deriving DecidableEq, Repr

def dCell : Cell := ⟨0, none, 0, 0⟩

/-- The DP cache: an insertion-ordered association list, modelling the
Python dict `cache` (whose iteration order is insertion order). -/
abbrev Cache := List (CKey × List (Option Cell))

/-- Dictionary lookup: the value of the first (only) entry with the
given key. -/
def lookupRow : Cache → CKey → Option (List (Option Cell))
  | [], _ => none
  | e :: es, k => if e.1 = k then some e.2 else lookupRow es k

def containsKey (s : Cache) (k : CKey) : Bool := (lookupRow s k).isSome

/-- `cache[k] = row`: replace in place if the key exists (Python dicts
keep the original position), else append. -/
def setKey (s : Cache) (k : CKey) (row : List (Option Cell)) : Cache :=
  if containsKey s k then
    s.map (fun e => if e.1 = k then (k, row) else e)
  else s ++ [(k, row)]

/-- `cache[k][i] = cell`. -/
def updateCell (s : Cache) (k : CKey) (i : ℕ) (cell : Cell) : Cache :=
  s.map (fun e => if e.1 = k then (k, e.2.set i (some cell)) else e)

def lookupCell (s : Cache) (k : CKey) (i : ℕ) : Option Cell :=
  ((lookupRow s k).getD []).getD i none

/-- The `[ctr, None, 1, 0]` value of the lazy initialisation
`cache[node] = [val] * n`. -/
def lazyCell (pc : Cluster) : Cell := ⟨ctrOf pc, none, 1, 0⟩

def lazyRow (n : ℕ) (pc : Cluster) : List (Option Cell) :=
  List.replicate n (some (lazyCell pc))

/-- `if node not in cache.keys(): cache[node] = [val] * n`. -/
def ensureNode (n : ℕ) (s : Cache) (col : ℕ) (pc : Cluster) : Cache :=
  if containsKey s (col - 1, pc) then s
  else setKey s (col - 1, pc) (lazyRow n pc)

/-- The transition cost `ps + d + N / 10 * g` of extract_signals, where
`ps` is read from the cache state `s` (after the lazy initialisation). -/
def costOf (w : ℕ) (rois : List ℕ) (roiI : ℕ) (s : Cache) (col : ℕ)
    (pc c : Cluster) : ℚ :=
  let ps := ((lookupCell s (col - 1, pc) roiI).getD dCell).score
  let d : ℚ := |(ctrOf pc : ℚ) - (rois.getD roiI 0 : ℚ)|
  ps + d + ((w : ℚ) / 10) * (gap pc c : ℚ)

/-- The `for pc in prev_clusters` loop: lazily initialise each
predecessor on first use and collect the `costs` dict in insertion
order. -/
def costsGo (w n : ℕ) (rois : List ℕ) (roiI col : ℕ) (c : Cluster) :
    List Cluster → Cache → List (Cluster × ℚ) →
      Cache × List (Cluster × ℚ)
  | [], s, acc => (s, acc)
  | pc :: pcs, s, acc =>
    let s1 := ensureNode n s col pc
    costsGo w n rois roiI col c pcs s1
      (acc ++ [(pc, costOf w rois roiI s1 col pc c)])

def costsFor (w n : ℕ) (rois : List ℕ) (roiI col : ℕ)
    (prevCls : List Cluster) (c : Cluster) (s : Cache) :
    Cache × List (Cluster × ℚ) :=
  costsGo w n rois roiI col c prevCls s []

/-- `min(costs, key=costs.get)`: the first pair attaining the minimal
cost, in insertion order. -/
def bestOf : List (Cluster × ℚ) → Option (Cluster × ℚ)
  | [] => none
  | e :: rest => some (rest.foldl (fun b x => if x.2 < b.2 then x else b) e)

/-- The body of `for roi_i in range(self.__n)`: compute the costs of all
predecessors and record the best one for `(col, c)` at `roi_i`. -/
def roiStep (w n : ℕ) (rois : List ℕ) (col : ℕ) (prevCls : List Cluster)
    (c : Cluster) (s : Cache) (roiI : ℕ) : Cache :=
  let r := costsFor w n rois roiI col prevCls c s
  match bestOf r.2 with
  | none => r.1
  | some best =>
    let p : CKey := (col - 1, best.1)
    let l := ((lookupCell r.1 p roiI).getD dCell).len + 1
    updateCell r.1 (col, c) roiI ⟨ctrOf best.1, some p, l, best.2⟩

/-- The body of `for c in clusters`: create `cache[col, c] = [None] * n`
and fill its entries for every ROI index. -/
def clusterStep (w n : ℕ) (rois : List ℕ) (col : ℕ)
    (prevCls : List Cluster) (s : Cache) (c : Cluster) : Cache :=
  let s1 := setKey s (col, c) (List.replicate n none)
  (List.range n).foldl (roiStep w n rois col prevCls c) s1

/-- One iteration of `for col in range(1, N)`: skipped entirely when the
previous column has no clusters. -/
def colStep (img : Img) (n : ℕ) (rois : List ℕ) (s : Cache) (col : ℕ) :
    Cache :=
  let prevCls := getClusters img (col - 1)
  if prevCls = [] then s
  else (getClusters img col).foldl
    (clusterStep img.width n rois col prevCls) s

/-- The complete DP cache built by extract_signals before backtracking. -/
def dpCache (img : Img) (n : ℕ) (rois : List ℕ) : Cache :=
  (List.range' 1 (img.width - 1)).foldl (colStep img n rois) []

/-- The row a predecessor node `(col - 1, pc)` carries once column col
has touched it: its cached row if present, else the lazy row it receives
on first use. -/
def nodeValRow (s : Cache) (n col : ℕ) (pc : Cluster) :
    List (Option Cell) :=
  match lookupRow s (col - 1, pc) with
  | some row => row
  | none => lazyRow n pc

def nodeCellAt (s : Cache) (n col : ℕ) (pc : Cluster) (roiI : ℕ) :
    Cell :=
  ((nodeValRow s n col pc).getD roiI none).getD dCell

/-- The costs dict of one `(c, roi_i)` inner loop, read against a fixed
cache state. -/
def specCosts (w n : ℕ) (rois : List ℕ) (roiI col : ℕ)
    (prevCls : List Cluster) (c : Cluster) (s : Cache) :
    List (Cluster × ℚ) :=
  prevCls.map (fun pc =>
    (pc, (nodeCellAt s n col pc roiI).score
      + |(ctrOf pc : ℚ) - (rois.getD roiI 0 : ℚ)|
      + ((w : ℚ) / 10) * (gap pc c : ℚ)))

/-- The cell recorded for `(col, c)` at one ROI index. -/
def specCell (w n : ℕ) (rois : List ℕ) (roiI col : ℕ)
    (prevCls : List Cluster) (c : Cluster) (s : Cache) : Option Cell :=
  match bestOf (specCosts w n rois roiI col prevCls c s) with
  | none => none
  | some best =>
    some ⟨ctrOf best.1, some (col - 1, best.1),
      (nodeCellAt s n col best.1 roiI).len + 1, best.2⟩

/-- Errors surfaced by the pipeline.  The Python code raises a single
`DigitizationError` type; the constructors below distinguish its raise
sites (`roiCount` for the ROI-count check, `calibration` for the
reference-pulse check of __vectorize) from uncaught library exceptions
(`crash`: ValueError / IndexError / TypeError). -/
inductive PErr where
  | roiCount
  | calibration
  | crash
deriving DecidableEq, Repr

instance {ε α : Type} [DecidableEq ε] [DecidableEq α] :
    DecidableEq (Except ε α) := fun x y =>
  match x, y with
  | .ok a, .ok b =>
    if h : a = b then .isTrue (by rw [h])
    else .isFalse (fun hc => h (Except.ok.inj hc))
  | .error a, .error b =>
    if h : a = b then .isTrue (by rw [h])
    else .isFalse (fun hc => h (Except.error.inj hc))
  | .ok _, .error _ => .isFalse (fun hc => Except.noConfusion hc)
  | .error _, .ok _ => .isFalse (fun hc => Except.noConfusion hc)

/-- A stable sort: `prec y x` means y must come strictly before x; an
element is inserted after every element that strictly precedes it, so
ties keep their original order, as Python's `sorted` guarantees. -/
def insSorted (prec : α → α → Bool) (x : α) : List α → List α
  | [] => [x]
  | y :: ys => if prec y x then y :: insSorted prec x ys else x :: y :: ys

def stableSort (prec : α → α → Bool) : List α → List α
  | [] => []
  | x :: xs => insSorted prec x (stableSort prec xs)

/-- The flattened pixel values of `window` rows starting at row `i`
(all columns), as `ecg[i : i + window, 0 : width].reshape(-1)`. -/
def windowVals (img : Img) (i window : ℕ) : List ℚ :=
  (List.range window).flatMap
    (fun dr => (List.range img.width).map (fun c => (img.px (i + dr) c : ℚ)))

/-- Population variance, `E[x^2] - E[x]^2`; the square of the numpy
standard deviation `.std()`. -/
def varOf (xs : List ℚ) : ℚ :=
  if xs.length = 0 then 0
  else (xs.map (fun v => v ^ 2)).sum / (xs.length : ℚ)
    - ((xs.sum / (xs.length : ℚ)) ^ 2)

/-- The `stds` array of SignalExtractor.__get_roi, modelled by
variances.  The Python slice `ecg[i : i + WINDOW - 1, :]` takes the
rows `i .. i + 8` (the endpoint of a numpy slice is excluded), i.e. a
window of 9 rows, although `WINDOW = 10`; the statistic is assigned to
row `i + SHIFT` with `SHIFT = 4`, and the loop runs
`i in range(height - WINDOW + 1)`. -/
def getRoiVars (img : Img) : List ℚ :=
  (List.range img.height).map
    (fun j =>
      if 10 ≤ img.height ∧ 4 ≤ j ∧ j + 6 ≤ img.height then
        varOf (windowVals img (j - 4) 9)
      else 0)

/-- The plateau scan of scipy's `_local_maxima_1d`:
`while i_ahead < i_max and x[i_ahead] == x[i]: i_ahead += 1`. -/
def scanAhead (x : List ℚ) (imax : ℕ) (v : ℚ) : ℕ → ℕ → ℕ
  | 0, i => i
  | fuel + 1, i =>
    if i < imax ∧ x.getD i 0 = v then scanAhead x imax v fuel (i + 1) else i

def lmGo (x : List ℚ) (imax : ℕ) : ℕ → ℕ → List ℕ
  | 0, _ => []
  | fuel + 1, i =>
    if i < imax then
      if x.getD (i - 1) 0 < x.getD i 0 then
        let ia := scanAhead x imax (x.getD i 0) x.length (i + 1)
        if x.getD ia 0 < x.getD i 0 then
          (i + (ia - 1)) / 2 :: lmGo x imax fuel (ia + 1)
        else lmGo x imax fuel (i + 1)
      else lmGo x imax fuel (i + 1)
    else []

/-- scipy `_local_maxima_1d`: midpoints of interior local maxima
(plateaus allowed), in ascending order. -/
def localMaxima (x : List ℚ) : List ℕ := lmGo x (x.length - 1) x.length 1

/-- Inner loop of `_select_by_peak_distance` walking left from j. -/
def killL (pk : List ℕ) (dist j : ℕ) : ℕ → ℕ → List Bool → List Bool
  | 0, _, keep => keep
  | fuel + 1, t, keep =>
    if t ≤ j ∧ pk.getD j 0 - pk.getD (j - t) 0 < dist then
      killL pk dist j fuel (t + 1) (keep.set (j - t) false)
    else keep

/-- Inner loop of `_select_by_peak_distance` walking right from j. -/
def killR (pk : List ℕ) (dist j : ℕ) : ℕ → ℕ → List Bool → List Bool
  | 0, _, keep => keep
  | fuel + 1, k, keep =>
    if k < pk.length ∧ pk.getD k 0 - pk.getD j 0 < dist then
      killR pk dist j fuel (k + 1) (keep.set k false)
    else keep

/-- scipy `_select_by_peak_distance`: visit peaks from highest to lowest
priority and erase every unprocessed peak closer than `dist`. -/
def selByDist (pk : List ℕ) (priority : List ℚ) (dist : ℕ) : List ℕ :=
  let order := stableSort
    (fun a b => decide (priority.getD a 0 < priority.getD b 0))
    (List.range pk.length)
  let keep := order.reverse.foldl
    (fun keep j =>
      if keep.getD j false then
        killR pk dist j pk.length (j + 1)
          (killL pk dist j pk.length 1 keep)
      else keep)
    (List.replicate pk.length true)
  ((pk.zip keep).filter (fun e => e.2)).map (fun e => e.1)

/-- SignalExtractor.__get_roi: peaks of the window statistic with
minimum spacing `int(height * 0.1)`, the n largest kept and sorted by
row.  scipy raises when `distance < 1`. -/
def getRoi (img : Img) (n : ℕ) : Except PErr (List ℕ) :=
  let vars := getRoiVars img
  let dist := img.height / 10
  if dist < 1 then .error .crash
  else
    let pk := localMaxima vars
    let peaks := selByDist pk (pk.map (fun p => vars.getD p 0)) dist
    let rois := stableSort
      (fun a b => decide (vars.getD b 0 < vars.getD a 0)) peaks
    if rois.length < n then .error .roiCount
    else .ok (stableSort (fun a b => decide (a < b)) (rois.take n))

/-- The backtracking walk: follow `prev` links, collecting for every
node its point `(x = column, y = cached y)` and its cluster. -/
def walk (s : Cache) (roiI : ℕ) : Option CKey → ℕ → List (Pt × Cluster)
  | none, _ => []
  | some _, 0 => []
  | some k, fuel + 1 =>
    let cell := (lookupCell s k roiI).getD dCell
    (⟨k.1, cell.y⟩, k.2) :: walk s roiI cell.prev fuel

/-- `max(cluster, key=lambda x: abs(x - roi))`: Python's max keeps the
first maximal element. -/
def farthestFrom (roi : ℕ) : Cluster → ℕ
  | [] => 0
  | x :: xs =>
    xs.foldl
      (fun (b v : ℕ) =>
        if ((b : ℤ) - (roi : ℤ)).natAbs < ((v : ℤ) - (roi : ℤ)).natAbs then v
        else b) x

/-- One iteration of SignalExtractor.__backtracking for ROI index
`roiI`: pick the longest path ending closest to the ROI, walk it
backwards, then apply the peak delineation. -/
def traceFor (s : Cache) (rois : List ℕ) (roiI : ℕ) :
    Except PErr (List Pt) :=
  let roi := rois.getD roiI 0
  let lenAt := fun (e : CKey × List (Option Cell)) =>
    ((e.2.getD roiI none).getD dCell).len
  match s with
  | [] => .error .crash
  | e0 :: rest =>
    let maxLen := rest.foldl (fun m e => max m (lenAt e)) (lenAt e0)
    let cands := ((e0 :: rest).filter (fun e => lenAt e = maxLen)).map
      (fun e => e.1)
    match cands with
    | [] => .error .crash
    | k0 :: ks =>
      let key := fun (k : CKey) => ((ctrOf k.2 : ℤ) - roi).natAbs
      let best := ks.foldl (fun b k => if key k < key b then k else b) k0
      let pairs := (walk s roiI (some best) (best.1 + 1)).reverse
      let rawS := pairs.map (fun e => e.1)
      let cls := pairs.map (fun e => e.2)
      let dists : List ℚ := rawS.map (fun p => |(p.y : ℚ) - (roi : ℚ)|)
      .ok ((localMaxima dists).foldl
        (fun acc p =>
          acc.set p ⟨(acc.getD p ⟨0, 0⟩).x, farthestFrom roi (cls.getD (p - 1) [])⟩)
        rawS)

/-- SignalExtractor.extract_signals: ROI detection, the DP pass over
all columns, then one backtracking per ROI. -/
def extractSignals (img : Img) (n : ℕ) : Except PErr (List (List Pt)) :=
  match getRoi img n with
  | .error e => .error e
  | .ok rois =>
    let s := dpCache img n rois
    (List.range n).mapM (traceFor s rois)

/-- The number of signals the Digitizer asks the extractor for:
`layout[0] + len(rhythm)` (Digitizer.__init__). -/
def digitizerN (layoutRows : ℕ) (rhythmLen : ℕ) : ℕ :=
  layoutRows + rhythmLen

/-- Python list access with negative indices, `pulso[i]`. -/
def pyIdx (l : List Pt) (i : ℤ) : Pt :=
  if i < 0 then l.getD (l.length - i.natAbs) ⟨0, 0⟩
  else l.getD i.toNat ⟨0, 0⟩

/-- Python slice `l[a:]` with a possibly negative `a`. -/
def pyDropFrom (l : List α) (a : ℤ) : List α :=
  if a < 0 then l.drop (l.length - a.natAbs) else l.drop a.toNat

/-- Python slice `l[0:b]` with a possibly negative `b`. -/
def pyTakeTo (l : List α) (b : ℤ) : List α :=
  if b < 0 then l.take (l.length - b.natAbs) else l.take b.toNat

/-- The at-baseline predicate of Postprocessor.__segment: some row's
offset `pulso[i].y - first_pixels` has absolute value at most
`PIXEL_EPS = 5`.  The Python code sorts the offsets first; sorting does
not change `any`, but it is kept to mirror the source. -/
def atV0 (raws : List (List Pt)) (first : List ℕ) (i : ℤ) : Bool :=
  let ys : List ℤ := (raws.zip first).map
    (fun e => ((pyIdx e.1 i).y : ℤ) - (e.2 : ℤ))
  let ys := stableSort (fun a b => decide (a < b)) ys
  ys.any (fun y => decide (|y| ≤ 5))

/-- The INI / MID / END state machine of Postprocessor.__segment; the
state is `(pulse_pos, ini_count)` with INI = 0, MID = 1, END = 2.
Returns the `cut` index, or none when the loop exhausts `direction`
(in Python `cut` stays None and the subsequent `cut + 1` raises). -/
def segLoop (raws : List (List Pt)) (first : List ℕ) :
    List ℤ → ℕ × ℤ → Option ℤ
  | [], _ => none
  | i :: rest, st =>
    let a := atV0 raws first i
    if st.1 = 2 ∧ (¬a ∨ st.2 ≤ 0) then some i
    else
      let st2 :=
        if st.1 = 0 then (if a then (0, st.2 + 1) else (1, st.2))
        else if st.1 = 1 ∧ a then (2, st.2 - 1)
        else if st.1 = 2 then (2, st.2 - 1)
        else st
      segLoop raws first rest st2

/-- The cut column found by the state machine of
Postprocessor.__segment (None when the walk exhausts `direction`). -/
def segCut (raws : List (List Pt)) (rp : Bool) : Option ℤ :=
  let LIMIT := match raws.map (fun s => s.length) with
    | [] => 0
    | x :: xs => xs.foldl min x
  let first := raws.map (fun s => (s.getLastD ⟨0, 0⟩).y)
  let direction : List ℤ :=
    if rp then (List.range (LIMIT - 1)).map (fun t => -(1 + (t : ℤ)))
    else (List.range LIMIT).map (fun t => (t : ℤ))
  segLoop raws first direction (0, 0)

/-- Postprocessor.__segment: find the cut between the reference pulse
and the waveform, slice each raw signal (one slice object, applied to
every row), and return the signals with the per-row reference pulses
`(v0, v1)`.  `first_pixels` is the y of every row's LAST point,
whatever the value of `rp_at_right`. -/
def segment (raws : List (List Pt)) (rp : Bool) :
    Except PErr (List (List Pt) × List (ℕ × ℕ)) :=
  if raws = [] ∨ raws.any (fun s => s.length = 0) then .error .crash
  else
    let first := raws.map (fun s => (s.getLastD ⟨0, 0⟩).y)
    match segCut raws rp with
    | none => .error .crash
    | some cut =>
      let signalSlice : List Pt → List Pt :=
        if rp then (fun rs => pyTakeTo rs (cut + 1))
        else (fun rs => pyDropFrom rs cut)
      let pulseSlice : List Pt → List Pt :=
        if rp then (fun rs => pyDropFrom rs (cut + 1))
        else (fun rs => pyTakeTo rs (cut + 1))
      let signals := raws.map signalSlice
      let sortedYs := (raws.map pulseSlice).map
        (fun rs => stableSort (fun a b => decide (b < a))
          (rs.map (fun p => p.y)))
      if sortedYs.any (fun l => l = []) then .error .crash
      else .ok (signals, first.zip (sortedYs.map (fun l => l.getLastD 0)))

/-- The twelve standard leads (utils/ecg/Lead.py). -/
inductive Lead where
  | I | II | III | aVR | aVL | aVF | V1 | V2 | V3 | V4 | V5 | V6
deriving DecidableEq, Repr

/-- Format.STANDARD of utils/ecg/Format.py. -/
def STANDARD : List Lead :=
  [.I, .II, .III, .aVR, .aVL, .aVF, .V1, .V2, .V3, .V4, .V5, .V6]

/-- Format.CABRERA of utils/ecg/Format.py. -/
def CABRERA : List Lead :=
  [.aVL, .I, .aVR, .II, .aVF, .III, .V1, .V2, .V3, .V4, .V5, .V6]

/-- `list.index`, used as `self.__rhythm.index(lead)` (only called when
the lead is a member). -/
def idxOf (ℓ : Lead) : List Lead → ℕ
  | [] => 0
  | x :: xs => if x = ℓ then 0 else idxOf ℓ xs + 1

/-- Round half to even, as `np.round` does. -/
def halfEven (q : ℚ) : ℤ :=
  if q - ⌊q⌋ < 1 / 2 then ⌊q⌋
  else if (1 : ℚ) / 2 < q - ⌊q⌋ then ⌊q⌋ + 1
  else if ⌊q⌋ % 2 = 0 then ⌊q⌋ else ⌊q⌋ + 1

/-- `np.round(x, 4)`. -/
def round4 (q : ℚ) : ℚ := (halfEven (q * 10000) : ℚ) / 10000

/-- The j-th of `np.linspace(0, len - 1, T)`. -/
def linPos (len T j : ℕ) : ℚ :=
  if T ≤ 1 then 0 else (j : ℚ) * ((len : ℚ) - 1) / ((T : ℚ) - 1)

/-- Evaluation of `scipy.interpolate.interp1d(np.arange(len(ys)), ys)`
at position t ∈ [0, len - 1]. -/
def interpAt (ys : List ℚ) (t : ℚ) : ℚ :=
  let i := (⌊t⌋).toNat
  if i + 1 < ys.length then
    ys.getD i 0 + (t - (i : ℚ)) * (ys.getD (i + 1) 0 - ys.getD i 0)
  else ys.getLastD 0

/-- One row of `interp_signals`: the signal's y values resampled by
linear interpolation onto T equally spaced positions. -/
def interpRow (T : ℕ) (s : List Pt) : List ℚ :=
  (List.range T).map
    (fun j => interpAt (s.map (fun p => (p.y : ℚ))) (linPos s.length T j))

/-- `total_obs` of Postprocessor.__vectorize: the interpolation count if
set, else the maximal signal length padded to a multiple of NCOLS. -/
def totalObs (signals : List (List Pt)) (NCOLS : ℕ) (interp : Option ℕ) :
    ℕ :=
  let maxLen := match signals.map (fun s => s.length) with
    | [] => 0
    | x :: xs => xs.foldl max x
  let maxDiff := maxLen % NCOLS
  let maxPad := if maxDiff = 0 then 0 else NCOLS - maxDiff
  match interp with
  | none => maxLen + maxPad
  | some k => k

/-- The sample table: one column of `total_obs` optional samples per
lead; `none` is the NaN / missing sentinel of the pandas DataFrame. -/
abbrev Table := Lead → List (Option ℚ)

/-- The source row of lead number i:
`self.__rhythm.index(lead) + NROWS if rhythm else i % NROWS`. -/
def rowFor (NROWS : ℕ) (rhythm : List Lead) (i : ℕ) (ℓ : Lead) : ℕ :=
  if ℓ ∈ rhythm then idxOf ℓ rhythm + NROWS else i % NROWS

/-- `signal = [(volt_0 - y) * (1 / (volt_0 - volt_1)) for y in signal]`
followed by `np.round(signal, 4)`. -/
def scaleSig (v0 v1 : ℕ) (ys : List ℚ) : List ℚ :=
  ys.map (fun y => round4 (((v0 : ℚ) - y) * (1 / ((v0 : ℚ) - (v1 : ℚ)))))

/-- The per-lead computation of the loop body of
Postprocessor.__vectorize: grid position, reference-pulse check,
slicing, scaling, rounding and the Cabrera aVR negation.  Returns the
grid column c and the scaled samples. -/
def stepCol (NROWS NCOLS : ℕ) (rhythm : List Lead) (cab : Bool)
    (interpRows : List (List ℚ)) (pulses : List (ℕ × ℕ)) (i : ℕ)
    (ℓ : Lead) : Except PErr (ℕ × List ℚ) :=
  let isR := decide (ℓ ∈ rhythm)
  let r := rowFor NROWS rhythm i ℓ
  let c := if isR then 0 else i / NROWS
  if pulses.length ≤ r then .error .crash
  else
    let v0 := (pulses.getD r (0, 0)).1
    let v1 := (pulses.getD r (0, 0)).2
    if v0 = v1 then .error .calibration
    else if interpRows.length ≤ r then .error .crash
    else
      let row := interpRows.getD r []
      let m := row.length / (if isR then 1 else NCOLS)
      let seg := (row.drop (c * m)).take m
      let scaled := scaleSig v0 v1 seg
      let scaled :=
        if cab ∧ ℓ = Lead.aVR then scaled.map (fun q => -q) else scaled
      .ok (c, scaled)

/-- Overwrite positions `start .. start + vals.length - 1` of a column,
the effect of `ecg_data.loc[(index >= len * c) & (index < len * (c+1)),
lead] = signal`. -/
def splice (base : List (Option ℚ)) (start : ℕ) (vals : List ℚ) :
    List (Option ℚ) :=
  base.take start ++ vals.map some ++ base.drop (start + vals.length)

/-- One iteration of `for i, lead in enumerate(ORDER)`.  The pandas
assignment raises a length mismatch unless the masked index range lies
inside the frame, hence the bound check. -/
def vecStep (NROWS NCOLS : ℕ) (rhythm : List Lead) (cab : Bool) (T : ℕ)
    (interpRows : List (List ℚ)) (pulses : List (ℕ × ℕ)) (t : Table)
    (e : ℕ × Lead) : Except PErr Table :=
  match stepCol NROWS NCOLS rhythm cab interpRows pulses e.1 e.2 with
  | .error x => .error x
  | .ok (c, scaled) =>
    if scaled.length * (c + 1) ≤ T then
      .ok (fun ℓ2 =>
        if ℓ2 = e.2 then splice (t e.2) (scaled.length * c) scaled
        else t ℓ2)
    else .error .crash

def vecLoop (NROWS NCOLS : ℕ) (rhythm : List Lead) (cab : Bool) (T : ℕ)
    (interpRows : List (List ℚ)) (pulses : List (ℕ × ℕ)) :
    Table → List (ℕ × Lead) → Except PErr Table
  | t, [] => .ok t
  | t, e :: rest =>
    match vecStep NROWS NCOLS rhythm cab T interpRows pulses t e with
    | .error x => .error x
    | .ok t2 => vecLoop NROWS NCOLS rhythm cab T interpRows pulses t2 rest

/-- Postprocessor.__vectorize.  `interp1d` requires at least two data
points and `max` a nonempty list; both raise ValueError otherwise. -/
def vectorize (NROWS NCOLS : ℕ) (rhythm : List Lead) (cab : Bool)
    (interp : Option ℕ) (signals : List (List Pt))
    (pulses : List (ℕ × ℕ)) : Except PErr Table :=
  if signals = [] then .error .crash
  else if signals.any (fun s => s.length < 2) then .error .crash
  else
    let T := totalObs signals NCOLS interp
    let ORDER := if cab then CABRERA else STANDARD
    let interpRows := signals.map (interpRow T)
    vecLoop NROWS NCOLS rhythm cab T interpRows pulses
      (fun _ => List.replicate T none) ORDER.enum

/-- Count of non-missing entries of a column. -/
def countSome (col : List (Option ℚ)) : ℕ :=
  (col.filter (fun o => o.isSome)).length

/-- Whether an Except value is a success (used to extract concrete
tables in witnesses). -/
def isOkB {α : Type} : Except PErr α → Bool
  | .ok _ => true
  | .error _ => false

/-- cv.threshold(..., THRESH_BINARY) on the buffer: pixels strictly
above the threshold become `value`, the rest 0.  Image.threshold applies
it in place. -/
def threshInPlace (img : Img) (thres value : ℕ) : Img :=
  ⟨img.data.map (fun row => row.map (fun p => if thres < p then value else 0))⟩

/-- Image.threshold of utils/graphics/Image.py as a state transformer:
it is annotated `-> None` and indeed returns nothing, mutating the
buffer in place; the pair is (returned value, new buffer state). -/
def imageThreshold (img : Img) (thres value : ℕ) : Option ℕ × Img :=
  (none, threshInPlace img thres value)

def histCount (img : Img) (i : ℕ) : ℕ :=
  (img.data.map (fun row => row.countP (fun p => decide (p = i)))).sum

/-- Preprocessor.__binarize: the Otsu threshold `k` maximising the
between-class variance, first maximiser kept (Python `max(enumerate..)`
keeps the first maximal element). -/
def otsuK (img : Img) : ℕ :=
  let N := img.height * img.width
  let p := fun i => (histCount img i : ℚ) / (N : ℚ)
  let om := fun k => ((List.range k).map p).sum
  let mu := fun k =>
    ((List.range k).map (fun (i : ℕ) => ((i : ℚ) + 1) * p i)).sum
  let muT := mu 256
  let f := fun k =>
    if om k ≠ 0 ∧ om k ≠ 1 then
      (muT * om k - mu k) ^ 2 / (om k * (1 - om k))
    else 0
  ((List.range' 1 255).foldl
    (fun b k => if b.2 < f k then (k, f k) else b) (0, f 0)).1

/-- Preprocessor.__binarize as a state transformer: `ecg = ecg.threshold
(k, ecg.white); return ecg` rebinds the local name to the None that
Image.threshold returns, so the returned value is none while the buffer
mutation takes effect. -/
def binarize (img : Img) : Option ℕ × Img :=
  imageThreshold img (otsuK img) 255

/-- `np.where(row == BLACK)[0]`: the ascending black positions. -/
def blackIdx (row : List ℕ) : List ℕ :=
  (List.range row.length).filter (fun c => row.getD c 255 = 0)

/-- `prop = np.count_nonzero(points) / size`: note that `points` holds
positions, so position 0 is not counted even when black. -/
def blackProp (positions : List ℕ) (size : ℕ) : ℚ :=
  (((positions.filter (fun c => c ≠ 0)).length : ℕ) : ℚ) / (size : ℚ)

def colVals (img : Img) (c : ℕ) : List ℕ :=
  img.data.map (fun row => row.getD c 255)

/-- `ecg[p1:p2] = BLACK` on one row (p2 excluded). -/
def fillSpan (row : List ℕ) (a b : ℕ) : List ℕ :=
  (List.range row.length).map
    (fun c => if a ≤ c ∧ c < b then 0 else row.getD c 255)

/-- The gap-bridging pass on one row of Preprocessor.__outline_borders:
join consecutive black pixels at distance at most `0.02 * width`. -/
def bridgeRow (w : ℕ) (row : List ℕ) : List ℕ :=
  let pts := blackIdx row
  (pts.zip pts.tail).foldl
    (fun r e =>
      if |((e.1 : ℚ)) - ((e.2 : ℚ))| ≤ (2 / 100) * (w : ℚ) then
        fillSpan r e.1 e.2
      else r)
    row

/-- Preprocessor.__outline_borders (model assumes the usual chart sizes,
height and width at least 10, where the Python border index lists hold
no negative indices). -/
def outlineBorders (img : Img) : Except PErr Img :=
  let im1 := ((List.range 10)
      ++ (List.range 10).map (fun t => img.height - 10 + t)).foldl
    (fun (im : Img) r =>
      if (95 : ℚ) / 100 ≤ blackProp (blackIdx (im.data.getD r [])) im.width
      then ⟨im.data.set r (List.replicate im.width 255)⟩
      else im)
    img
  let im2 := ((List.range 10)
      ++ (List.range 10).map (fun t => img.width - 10 + t)).foldl
    (fun (im : Img) c =>
      if (95 : ℚ) / 100 ≤
          blackProp ((List.range im.height).filter
            (fun r => (colVals im c).getD r 255 = 0)) im.height
      then ⟨im.data.map (fun row => row.set c 255)⟩
      else im)
    im1
  let nonWhite := (List.range im2.height).filter
    (fun r => (im2.data.getD r []).any (fun p => p = 0))
  match nonWhite with
  | [] => .error .crash
  | r0 :: rest =>
    let rlast := (r0 :: rest).getLastD 0
    .ok ([r0, rlast].foldl
      (fun (im : Img) r =>
        ⟨im.data.set r (bridgeRow im.width (im.data.getD r []))⟩)
      im2)

/-- Preprocessor.__gridline_removal from the point where the working
image is the HSV value mask: Otsu binarisation through __binarize (in
place), then a `cv.threshold` call whose threshold argument is the value
__binarize returned and whose result is discarded, then
__outline_borders.  The external cv.threshold is a parameter: the
output cannot depend on it. -/
def gridlineRemovalCore
    (cvThresh : List (List ℕ) → Option ℕ → ℕ → ℕ × List (List ℕ))
    (img : Img) : Except PErr Img :=
  let b := binarize img
  let discard := cvThresh b.2.data b.1 255
  let _ := discard
  outlineBorders b.2

/-- The structural invariant of the DP cache that backtracking relies
on: every `prev` link recorded in a cached cell points to the column
directly to the left of the cell's own key. -/
def PrevOK (s : Cache) : Prop :=
  ∀ k row, lookupRow s k = some row →
    ∀ i cell, row.getD i none = some cell →
      ∀ k2, cell.prev = some k2 → k2.1 + 1 = k.1

/-! Concrete inputs used by counterexamples and witnesses. -/

def whiteRow (w : ℕ) : List ℕ := List.replicate w 255

/-- A 10 x 4 binarised chart whose column 2 holds no ink: ink at
(4,0), (5,0), (4,1), (4,3). -/
def img1 : Img :=
  ⟨List.replicate 4 (whiteRow 4) ++ [[0, 0, 255, 0], [0, 255, 255, 255]]
    ++ List.replicate 4 (whiteRow 4)⟩

/-- A 10 x 5 binarised chart with ink on row 4 of columns 0, 1, 3, 4
and an empty column 2. -/
def img2 : Img :=
  ⟨List.replicate 4 (whiteRow 5) ++ [[0, 0, 255, 0, 0]]
    ++ List.replicate 5 (whiteRow 5)⟩

/-- A 10 x 2 image whose only ink pixel sits on the last row. -/
def img7 : Img := ⟨List.replicate 9 (whiteRow 2) ++ [[0, 255]]⟩

/-- One raw signal whose left end (a left-side reference pulse) sits at
y = 10 and whose right end sits at y = 0. -/
def raw4 : List (List Pt) :=
  [[⟨0, 10⟩, ⟨1, 10⟩, ⟨2, 10⟩, ⟨3, 0⟩, ⟨4, 0⟩, ⟨5, 0⟩]]

def flatRow (y : ℕ) : List Pt := [⟨0, y⟩, ⟨1, y⟩, ⟨2, y⟩, ⟨3, y⟩]

/-- Three segmented rows for a (3,4) layout; row 0 carries a collapsed
reference pulse. -/
def sig5 : List (List Pt) := [flatRow 10, flatRow 10, flatRow 10]

def pulses5 : List (ℕ × ℕ) := [(5, 5), (20, 10), (20, 10)]

/-- Three segmented rows for a (3,4) layout with distinct content. -/
def sigs6 : List (List Pt) :=
  [[⟨0, 20⟩, ⟨1, 10⟩, ⟨2, 20⟩, ⟨3, 20⟩], flatRow 20, flatRow 18]

def pulses6 : List (ℕ × ℕ) := [(20, 10), (20, 10), (20, 10)]

def sig8 : List (List Pt) := [flatRow 10, flatRow 10, flatRow 10]

def pulses8 : List (ℕ × ℕ) := [(20, 10), (20, 10), (20, 10)]

/-- Four rows for a (3,4) layout with the rhythm strip II: rows 0-2 are
the panel rows, row 3 the rhythm row. -/
def sigs10 : List (List Pt) :=
  [flatRow 10, flatRow 10, flatRow 10, [⟨0, 20⟩, ⟨1, 10⟩, ⟨2, 20⟩, ⟨3, 20⟩]]

def pulses10 : List (ℕ × ℕ) := [(20, 10), (20, 10), (20, 10), (20, 10)]

/-- C1, counterexample: a successful extraction on `img1` (n = 1 =
layout.rows + |rhythm| for a one-row layout without rhythm strips)
returns a polyline whose x-coordinates are [0, 1], not the full column
set {0, 1, 2, 3} of the 4-column chart: the empty column 2 makes the
tracer's paths end at column 1, so the polyline does not cover every
chart column. -/
theorem c1_counterexample :
    extractSignals img1 (digitizerN 1 0) = .ok [[⟨0, 5⟩, ⟨1, 5⟩]] ∧
    img1.width = 4 ∧
    ([⟨0, 5⟩, ⟨1, 5⟩] : List Pt).map Pt.x ≠ List.range img1.width := by
  refine ⟨?_, by decide, by decide⟩
  decide

/-- C2, counterexample: on `img2` the most recent populated column
before column 3 is column 1 (column 2 is empty), yet the cluster of
column 3 does not take its predecessor from column 1: its cached state
is the fresh lazy value (prev = none, length 1, score 0), so the run of
empty columns did restart the path and reset the accumulated length and
score. -/
theorem c2_counterexample :
    getRoi img2 1 = .ok [4] ∧
    getClusters img2 1 = [[4]] ∧
    getClusters img2 2 = [] ∧
    getClusters img2 3 = [[4]] ∧
    lookupRow (dpCache img2 1 [4]) (3, [4]) =
      some [some ⟨4, none, 1, 0⟩] := by
  refine ⟨?_, by decide, by decide, by decide, ?_⟩ <;> decide

/-- C7: on `img7` (white except one black pixel on row 9) every value of
the code's statistic array is 0, because the slice
`ecg[i : i + WINDOW - 1]` covers only the 9 rows i .. i + 8 and misses
row 9; the claimed 10-row window (rows i .. i + 9) has nonzero
variance.  (Variances stand in for standard deviations: one is zero
exactly when the other is.) -/
theorem c7_window_off_by_one :
    getRoiVars img7 = List.replicate 10 0 ∧
    varOf (windowVals img7 0 9) = 0 ∧
    varOf (windowVals img7 0 10) ≠ 0 := by
  refine ⟨?_, by decide, by decide⟩
  decide

/-- C4, counterexample: with `rp_at_right = false` the pulse sits at the
left end and the claim puts the anchor v0 at the FIRST column, whose y
is 10 here; the code nevertheless anchors at the last column's y
(`first_pixels = [pulso[-1].y ...]`), producing v0 = 0. -/
theorem c4_counterexample :
    segment raw4 false = .ok ([[⟨4, 0⟩, ⟨5, 0⟩]], [(0, 0)]) ∧
    ((raw4.getD 0 []).headD ⟨0, 0⟩).y = 10 ∧ (0 : ℕ) ≠ 10 := by
  refine ⟨?_, by decide, by decide⟩
  decide

/-- C6, counterexample: on the same segmented input, the aVR column of
the cabrera run is not the negation of the aVR column of the standard
run - the two runs read aVR from different grid cells (index 2 versus
index 3 of the lead order). -/
theorem c6_counterexample :
    (vectorize 3 4 [] true none sigs6 pulses6).map (fun t => t Lead.aVR) =
      .ok [some (-(1 / 5)), none, none, none] ∧
    (vectorize 3 4 [] false none sigs6 pulses6).map (fun t => t Lead.aVR) =
      .ok [none, some 1, none, none] ∧
    ([some (-(1 / 5)), none, none, none] : List (Option ℚ)) ≠
      ([none, some 1, none, none] : List (Option ℚ)).map
        (Option.map (fun q => -q)) := by
  refine ⟨?_, ?_, by decide⟩ <;> decide

/-- C8, counterexample: with `interpolation = 8` and layout (3, 4), the
column of lead I holds 2 = 8 / 4 non-missing entries, not 8. -/
theorem c8_counterexample :
    (vectorize 3 4 [] false (some 8) sig8 pulses8).map
      (fun t => countSome (t Lead.I)) = .ok 2 ∧ (2 : ℕ) ≠ 8 := by
  refine ⟨?_, by decide⟩
  decide

/-! Helper lemmas about lists. -/

theorem getD_map_of_lt {α β : Type} (f : α → β) (l : List α) (i : ℕ)
    (d : β) (d2 : α) (h : i < l.length) :
    (l.map f).getD i d = f (l.getD i d2) := by
  induction l generalizing i with
  | nil => simp at h
  | cons x xs ih =>
    cases i with
    | zero => simp [List.getD]
    | succ j =>
      simp only [List.map_cons, List.getD_cons_succ]
      exact ih j (by simpa using h)

theorem getD_zip_of_lt {α β : Type} (l1 : List α) (l2 : List β) (i : ℕ)
    (d1 : α) (d2 : β) (h1 : i < l1.length) (h2 : i < l2.length) :
    (l1.zip l2).getD i (d1, d2) = (l1.getD i d1, l2.getD i d2) := by
  induction l1 generalizing i l2 with
  | nil => simp at h1
  | cons x xs ih =>
    cases l2 with
    | nil => simp at h2
    | cons y ys =>
      cases i with
      | zero => simp [List.getD]
      | succ j =>
        simp only [List.zip_cons_cons, List.getD_cons_succ]
        exact ih ys j (by simpa using h1) (by simpa using h2)

theorem countSome_append (a b : List (Option ℚ)) :
    countSome (a ++ b) = countSome a + countSome b := by
  simp [countSome, List.filter_append]

theorem countSome_replicate_none (n : ℕ) :
    countSome (List.replicate n (none : Option ℚ)) = 0 := by
  induction n with
  | zero => simp [countSome]
  | succ m ih => simpa [countSome, List.replicate_succ, List.filter_cons]
      using ih

theorem countSome_map_some (vals : List ℚ) :
    countSome (vals.map some) = vals.length := by
  induction vals with
  | nil => simp [countSome]
  | cons x xs ih => simpa [countSome, List.filter_cons] using ih

theorem countSome_splice_replicate (T start : ℕ) (vals : List ℚ)
    (h : start + vals.length ≤ T) :
    countSome (splice (List.replicate T (none : Option ℚ)) start vals) =
      vals.length := by
  unfold splice
  rw [List.take_replicate, List.drop_replicate]
  rw [countSome_append, countSome_append, countSome_replicate_none,
    countSome_replicate_none, countSome_map_some]
  omega

theorem idxOf_lt_length {ℓ : Lead} {l : List Lead} (h : ℓ ∈ l) :
    idxOf ℓ l < l.length := by
  induction l with
  | nil => cases h
  | cons x xs ih =>
    by_cases hx : x = ℓ
    · simp [idxOf, hx]
    · have hm : ℓ ∈ xs := by
        rcases List.mem_cons.mp h with h1 | h1
        · exact absurd h1.symm hx
        · exact h1
      simp only [idxOf, if_neg hx, List.length_cons]
      exact Nat.succ_lt_succ (ih hm)

/-! Lemmas about the __vectorize loop. -/

theorem interpRow_length (T : ℕ) (s : List Pt) :
    (interpRow T s).length = T := by
  simp [interpRow]

theorem vecStep_ok_inv {NROWS NCOLS : ℕ} {rhythm : List Lead} {cab : Bool}
    {T : ℕ} {ir : List (List ℚ)} {pulses : List (ℕ × ℕ)} {t t2 : Table}
    {e : ℕ × Lead}
    (h : vecStep NROWS NCOLS rhythm cab T ir pulses t e = .ok t2) :
    ∃ c scaled,
      stepCol NROWS NCOLS rhythm cab ir pulses e.1 e.2 = .ok (c, scaled) ∧
      scaled.length * (c + 1) ≤ T ∧
      t2 = fun ℓ2 =>
        if ℓ2 = e.2 then splice (t e.2) (scaled.length * c) scaled
        else t ℓ2 := by
  unfold vecStep at h
  cases hsc : stepCol NROWS NCOLS rhythm cab ir pulses e.1 e.2 with
  | error x => rw [hsc] at h; cases h
  | ok p =>
    rw [hsc] at h
    obtain ⟨c, scaled⟩ := p
    dsimp only at h
    split at h
    · exact ⟨c, scaled, rfl, by assumption, (Except.ok.inj h).symm⟩
    · cases h

theorem vecLoop_ok_notMem {NROWS NCOLS : ℕ} {rhythm : List Lead}
    {cab : Bool} {T : ℕ} {ir : List (List ℚ)} {pulses : List (ℕ × ℕ)}
    {t t2 : Table} {L : List (ℕ × Lead)} {ℓ : Lead}
    (h : vecLoop NROWS NCOLS rhythm cab T ir pulses t L = .ok t2)
    (hℓ : ∀ e ∈ L, e.2 ≠ ℓ) : t2 ℓ = t ℓ := by
  induction L generalizing t with
  | nil =>
    unfold vecLoop at h
    rw [Except.ok.inj h]
  | cons e rest ih =>
    unfold vecLoop at h
    cases hs : vecStep NROWS NCOLS rhythm cab T ir pulses t e with
    | error x => rw [hs] at h; cases h
    | ok t1 =>
      rw [hs] at h
      obtain ⟨c, scaled, hsc, hb, ht1⟩ := vecStep_ok_inv hs
      have h1 : t1 ℓ = t ℓ := by
        rw [ht1]
        exact if_neg (fun hc => hℓ e (by simp) hc.symm)
      rw [ih h (fun x hx => hℓ x (List.mem_cons_of_mem e hx)), h1]

theorem vecLoop_append {NROWS NCOLS : ℕ} {rhythm : List Lead} {cab : Bool}
    {T : ℕ} {ir : List (List ℚ)} {pulses : List (ℕ × ℕ)} {t t2 : Table}
    {L1 L2 : List (ℕ × Lead)}
    (h : vecLoop NROWS NCOLS rhythm cab T ir pulses t (L1 ++ L2) = .ok t2) :
    ∃ t1, vecLoop NROWS NCOLS rhythm cab T ir pulses t L1 = .ok t1 ∧
      vecLoop NROWS NCOLS rhythm cab T ir pulses t1 L2 = .ok t2 := by
  induction L1 generalizing t with
  | nil => exact ⟨t, rfl, h⟩
  | cons e rest ih =>
    rw [List.cons_append] at h
    unfold vecLoop at h
    cases hs : vecStep NROWS NCOLS rhythm cab T ir pulses t e with
    | error x => rw [hs] at h; cases h
    | ok t1 =>
      rw [hs] at h
      obtain ⟨tm, hm1, hm2⟩ := ih h
      refine ⟨tm, ?_, hm2⟩
      unfold vecLoop
      rw [hs]
      exact hm1

theorem vecLoop_column {NROWS NCOLS : ℕ} {rhythm : List Lead} {cab : Bool}
    {T : ℕ} {ir : List (List ℚ)} {pulses : List (ℕ × ℕ)} {t t2 : Table}
    {L1 L2 : List (ℕ × Lead)} {e : ℕ × Lead}
    (h : vecLoop NROWS NCOLS rhythm cab T ir pulses t (L1 ++ e :: L2) =
      .ok t2)
    (h1 : ∀ x ∈ L1, x.2 ≠ e.2) (h2 : ∀ x ∈ L2, x.2 ≠ e.2) :
    ∃ c scaled,
      stepCol NROWS NCOLS rhythm cab ir pulses e.1 e.2 = .ok (c, scaled) ∧
      scaled.length * (c + 1) ≤ T ∧
      t2 e.2 = splice (t e.2) (scaled.length * c) scaled := by
  obtain ⟨t1, ha, hb⟩ := vecLoop_append h
  unfold vecLoop at hb
  cases hs : vecStep NROWS NCOLS rhythm cab T ir pulses t1 e with
  | error x => rw [hs] at hb; cases hb
  | ok t3 =>
    rw [hs] at hb
    obtain ⟨c, scaled, hsc, hbnd, ht3⟩ := vecStep_ok_inv hs
    have e1 : t1 e.2 = t e.2 := vecLoop_ok_notMem ha h1
    have e2 : t2 e.2 = t3 e.2 := vecLoop_ok_notMem hb h2
    refine ⟨c, scaled, hsc, hbnd, ?_⟩
    rw [e2, ht3]
    dsimp only
    rw [if_pos rfl, e1]

/-- Every lead occurs in both lead orders, at a position below 12. -/
theorem lead_mem_enum (cab : Bool) (ℓ : Lead) :
    ∃ i, i < 12 ∧ (i, ℓ) ∈ (if cab then CABRERA else STANDARD).enum := by
  cases cab <;> cases ℓ <;>
    first
    | exact ⟨0, by decide, by decide⟩
    | exact ⟨1, by decide, by decide⟩
    | exact ⟨2, by decide, by decide⟩
    | exact ⟨3, by decide, by decide⟩
    | exact ⟨4, by decide, by decide⟩
    | exact ⟨5, by decide, by decide⟩
    | exact ⟨6, by decide, by decide⟩
    | exact ⟨7, by decide, by decide⟩
    | exact ⟨8, by decide, by decide⟩
    | exact ⟨9, by decide, by decide⟩
    | exact ⟨10, by decide, by decide⟩
    | exact ⟨11, by decide, by decide⟩

/-- The central access lemma: when __vectorize succeeds, the column of a
lead that sits at position `(i, ℓ)` of the active lead order is exactly
one `splice` of its scaled samples into the all-missing column. -/
theorem vectorize_column {NROWS NCOLS : ℕ} {rhythm : List Lead}
    {cab : Bool} {interp : Option ℕ} {signals : List (List Pt)}
    {pulses : List (ℕ × ℕ)} {t : Table} {i : ℕ} {ℓ : Lead}
    (h : vectorize NROWS NCOLS rhythm cab interp signals pulses = .ok t)
    (he : (i, ℓ) ∈ (if cab then CABRERA else STANDARD).enum) :
    ∃ c scaled,
      stepCol NROWS NCOLS rhythm cab
          (signals.map (interpRow (totalObs signals NCOLS interp))) pulses
          i ℓ = .ok (c, scaled) ∧
      scaled.length * (c + 1) ≤ totalObs signals NCOLS interp ∧
      t ℓ = splice
        (List.replicate (totalObs signals NCOLS interp) (none : Option ℚ))
        (scaled.length * c) scaled := by
  unfold vectorize at h
  split at h
  · cases h
  · split at h
    · cases h
    · dsimp only at h
      obtain ⟨L1, L2, hdec⟩ := List.append_of_mem he
      have hnd : (((if cab then CABRERA else STANDARD).enum.map
          Prod.snd)).Nodup := by
        rw [List.enum_map_snd]
        cases cab <;> decide
      rw [hdec] at hnd h
      rw [List.map_append, List.map_cons] at hnd
      have hnotL1 : ℓ ∉ L1.map Prod.snd := by
        intro hc
        exact (List.disjoint_of_nodup_append hnd) hc (by simp)
      have hnotL2 : ℓ ∉ L2.map Prod.snd := by
        have := (List.nodup_append.mp hnd).2.1
        intro hc
        exact (List.nodup_cons.mp this).1 hc
      have h1 : ∀ x ∈ L1, x.2 ≠ (i, ℓ).2 := by
        intro x hx hc
        apply hnotL1
        have hm := List.mem_map_of_mem Prod.snd hx
        rw [hc] at hm
        exact hm
      have h2 : ∀ x ∈ L2, x.2 ≠ (i, ℓ).2 := by
        intro x hx hc
        apply hnotL2
        have hm := List.mem_map_of_mem Prod.snd hx
        rw [hc] at hm
        exact hm
      obtain ⟨c, scaled, hsc, hbnd, hcol⟩ := vecLoop_column h h1 h2
      exact ⟨c, scaled, hsc, hbnd, hcol⟩

theorem isOkB_eq_true {α : Type} {r : Except PErr α} (h : isOkB r = true) :
    ∃ a, r = .ok a := by
  cases r with
  | ok a => exact ⟨a, rfl⟩
  | error e => cases h

theorem enumFrom_mem_fst_lt {α : Type} :
    ∀ {k : ℕ} {l : List α} {p : ℕ × α},
      p ∈ List.enumFrom k l → p.1 < k + l.length := by
  intro k l
  induction l generalizing k with
  | nil => intro p h; cases h
  | cons x xs ih =>
    intro p h
    rcases List.mem_cons.mp h with h1 | h1
    · rw [h1]; simp
    · have := ih h1
      simp only [List.length_cons]
      omega

theorem enum_mem_fst_lt {α : Type} {l : List α} {p : ℕ × α}
    (h : p ∈ l.enum) : p.1 < l.length := by
  have := enumFrom_mem_fst_lt (k := 0) (l := l) (p := p) h
  omega

theorem rowFor_lt {NROWS : ℕ} {rhythm : List Lead} {i : ℕ} {ℓ : Lead}
    (hr : 1 ≤ NROWS) :
    rowFor NROWS rhythm i ℓ < NROWS + rhythm.length := by
  unfold rowFor
  split
  · have := idxOf_lt_length (by assumption)
    omega
  · have := Nat.mod_lt i (show 0 < NROWS by omega)
    omega

/-- When the `(col, cluster)` guards pass but the reference pulse is
collapsed, the loop body raises exactly the calibration error. -/
theorem stepCol_calib {NROWS NCOLS : ℕ} {rhythm : List Lead} {cab : Bool}
    {ir : List (List ℚ)} {pulses : List (ℕ × ℕ)} {i : ℕ} {ℓ : Lead}
    (hrlt : rowFor NROWS rhythm i ℓ < pulses.length)
    (hbad : (pulses.getD (rowFor NROWS rhythm i ℓ) (0, 0)).1 =
      (pulses.getD (rowFor NROWS rhythm i ℓ) (0, 0)).2) :
    stepCol NROWS NCOLS rhythm cab ir pulses i ℓ = .error .calibration := by
  unfold stepCol
  dsimp only
  rw [if_neg (by omega), if_pos hbad]

/-- Inversion: a successful loop body implies both index bounds and a
non-collapsed reference pulse. -/
theorem stepCol_ok_inv0 {NROWS NCOLS : ℕ} {rhythm : List Lead}
    {cab : Bool} {ir : List (List ℚ)} {pulses : List (ℕ × ℕ)} {i : ℕ}
    {ℓ : Lead} {p : ℕ × List ℚ}
    (h : stepCol NROWS NCOLS rhythm cab ir pulses i ℓ = .ok p) :
    rowFor NROWS rhythm i ℓ < pulses.length ∧
    (pulses.getD (rowFor NROWS rhythm i ℓ) (0, 0)).1 ≠
      (pulses.getD (rowFor NROWS rhythm i ℓ) (0, 0)).2 ∧
    rowFor NROWS rhythm i ℓ < ir.length := by
  unfold stepCol at h
  dsimp only at h
  split at h
  · cases h
  · split at h
    · cases h
    · split at h
      · cases h
      · refine ⟨by omega, by assumption, by omega⟩

/-- The successful loop body for a rhythm lead: grid column 0 and the
complete scaled resampled row. -/
theorem stepCol_ok_rhythm {NROWS NCOLS : ℕ} {rhythm : List Lead}
    {cab : Bool} {ir : List (List ℚ)} {pulses : List (ℕ × ℕ)} {i : ℕ}
    {ℓ : Lead} (hmem : ℓ ∈ rhythm)
    (hrp : rowFor NROWS rhythm i ℓ < pulses.length)
    (hri : rowFor NROWS rhythm i ℓ < ir.length)
    (hne : (pulses.getD (rowFor NROWS rhythm i ℓ) (0, 0)).1 ≠
      (pulses.getD (rowFor NROWS rhythm i ℓ) (0, 0)).2) :
    stepCol NROWS NCOLS rhythm cab ir pulses i ℓ =
      .ok (0,
        if cab ∧ ℓ = Lead.aVR then
          (scaleSig (pulses.getD (rowFor NROWS rhythm i ℓ) (0, 0)).1
            (pulses.getD (rowFor NROWS rhythm i ℓ) (0, 0)).2
            (ir.getD (rowFor NROWS rhythm i ℓ) [])).map (fun q => -q)
        else
          scaleSig (pulses.getD (rowFor NROWS rhythm i ℓ) (0, 0)).1
            (pulses.getD (rowFor NROWS rhythm i ℓ) (0, 0)).2
            (ir.getD (rowFor NROWS rhythm i ℓ) [])) := by
  unfold stepCol
  dsimp only
  rw [if_neg (by omega), if_neg hne, if_neg (by omega)]
  have hd : decide (ℓ ∈ rhythm) = true := by simpa using hmem
  rw [hd]
  simp only [if_pos trivial, Nat.div_one, Nat.zero_mul, List.drop_zero,
    List.take_length]

/-- The successful loop body for a panel lead: grid cell
`(i % NROWS, i / NROWS)` and the c-th slice of length
`total_obs / NCOLS`. -/
theorem stepCol_ok_panel {NROWS NCOLS : ℕ} {rhythm : List Lead}
    {cab : Bool} {ir : List (List ℚ)} {pulses : List (ℕ × ℕ)} {i : ℕ}
    {ℓ : Lead} (hmem : ℓ ∉ rhythm)
    (hrp : rowFor NROWS rhythm i ℓ < pulses.length)
    (hri : rowFor NROWS rhythm i ℓ < ir.length)
    (hne : (pulses.getD (rowFor NROWS rhythm i ℓ) (0, 0)).1 ≠
      (pulses.getD (rowFor NROWS rhythm i ℓ) (0, 0)).2) :
    stepCol NROWS NCOLS rhythm cab ir pulses i ℓ =
      .ok (i / NROWS,
        let row := ir.getD (rowFor NROWS rhythm i ℓ) []
        let m := row.length / NCOLS
        let base := scaleSig (pulses.getD (rowFor NROWS rhythm i ℓ) (0, 0)).1
          (pulses.getD (rowFor NROWS rhythm i ℓ) (0, 0)).2
          ((row.drop (i / NROWS * m)).take m)
        if cab ∧ ℓ = Lead.aVR then base.map (fun q => -q) else base) := by
  unfold stepCol
  dsimp only
  rw [if_neg (by omega), if_neg hne, if_neg (by omega)]
  have hd : decide (ℓ ∈ rhythm) = false := by simpa using hmem
  rw [hd]
  simp only [Bool.false_eq_true, if_false]

/-- Success of the loop body with explicit column and length data, under
a layout able to host all 12 leads. -/
theorem stepCol_ok_bound {NROWS NCOLS : ℕ} {rhythm : List Lead}
    {cab : Bool} {interp : Option ℕ} {signals : List (List Pt)}
    {pulses : List (ℕ × ℕ)} {i : ℕ} {ℓ : Lead}
    (hr : 1 ≤ NROWS) (hc : 1 ≤ NCOLS) (hl : 12 ≤ NROWS * NCOLS)
    (hi : i < 12)
    (hsig : signals.length = NROWS + rhythm.length)
    (hpul : pulses.length = NROWS + rhythm.length)
    (hne : (pulses.getD (rowFor NROWS rhythm i ℓ) (0, 0)).1 ≠
      (pulses.getD (rowFor NROWS rhythm i ℓ) (0, 0)).2) :
    ∃ c s,
      stepCol NROWS NCOLS rhythm cab
        (signals.map (interpRow (totalObs signals NCOLS interp))) pulses
        i ℓ = .ok (c, s) ∧
      s.length = (if ℓ ∈ rhythm then totalObs signals NCOLS interp
        else totalObs signals NCOLS interp / NCOLS) ∧
      s.length * (c + 1) ≤ totalObs signals NCOLS interp ∧
      c = (if ℓ ∈ rhythm then 0 else i / NROWS) := by
  set T := totalObs signals NCOLS interp with hT
  set r := rowFor NROWS rhythm i ℓ with hrdef
  have hrp : r < pulses.length := by rw [hpul]; exact rowFor_lt hr
  have hri : r < (signals.map (interpRow T)).length := by
    rw [List.length_map, hsig]; exact rowFor_lt hr
  have hrow : (signals.map (interpRow T)).getD r [] =
      interpRow T (signals.getD r []) :=
    getD_map_of_lt (interpRow T) signals r [] [] (by
      rw [List.length_map] at hri; exact hri)
  have hrowlen : ((signals.map (interpRow T)).getD r []).length = T := by
    rw [hrow, interpRow_length]
  by_cases hmem : ℓ ∈ rhythm
  · refine ⟨0, _, stepCol_ok_rhythm hmem hrp hri hne, ?_, ?_, by
      rw [if_pos hmem]⟩
    · rw [if_pos hmem]
      split
      · rw [List.length_map, scaleSig, List.length_map, hrowlen]
      · rw [scaleSig, List.length_map, hrowlen]
    · have hlen : (if cab ∧ ℓ = Lead.aVR then
          (scaleSig (pulses.getD r (0, 0)).1 (pulses.getD r (0, 0)).2
            ((signals.map (interpRow T)).getD r [])).map (fun q => -q)
        else
          scaleSig (pulses.getD r (0, 0)).1 (pulses.getD r (0, 0)).2
            ((signals.map (interpRow T)).getD r [])).length = T := by
        split
        · rw [List.length_map, scaleSig, List.length_map, hrowlen]
        · rw [scaleSig, List.length_map, hrowlen]
      rw [hlen]
      omega
  · have hclt : i / NROWS < NCOLS := by
      have hlt : i < NROWS * NCOLS := by omega
      exact Nat.div_lt_of_lt_mul hlt
    have hmle : T / NCOLS * NCOLS ≤ T := Nat.div_mul_le_self T NCOLS
    set row := (signals.map (interpRow T)).getD r [] with hrowdef
    have hbig : i / NROWS * (T / NCOLS) + T / NCOLS ≤ T := by
      have h2 : (i / NROWS + 1) * (T / NCOLS) ≤ NCOLS * (T / NCOLS) :=
        Nat.mul_le_mul_right _ (by omega)
      calc i / NROWS * (T / NCOLS) + T / NCOLS
          = (i / NROWS + 1) * (T / NCOLS) := by ring
        _ ≤ NCOLS * (T / NCOLS) := h2
        _ = T / NCOLS * NCOLS := Nat.mul_comm _ _
        _ ≤ T := hmle
    have hseglen :
        ((row.drop (i / NROWS * (row.length / NCOLS))).take
          (row.length / NCOLS)).length = T / NCOLS := by
      rw [List.length_take, List.length_drop, hrowlen]
      omega
    refine ⟨i / NROWS, _, stepCol_ok_panel hmem hrp hri hne, ?_, ?_, by
      rw [if_neg hmem]⟩
    · rw [if_neg hmem]
      dsimp only
      split
      · rw [List.length_map, scaleSig, List.length_map]
        exact hseglen
      · rw [scaleSig, List.length_map]
        exact hseglen
    · have hslen : (let m := row.length / NCOLS
        let base := scaleSig (pulses.getD r (0, 0)).1
          (pulses.getD r (0, 0)).2 ((row.drop (i / NROWS * m)).take m)
        if cab ∧ ℓ = Lead.aVR then base.map (fun q => -q)
        else base).length = T / NCOLS := by
        dsimp only
        split
        · rw [List.length_map, scaleSig, List.length_map]
          exact hseglen
        · rw [scaleSig, List.length_map]
          exact hseglen
      rw [hslen]
      calc T / NCOLS * (i / NROWS + 1) ≤ T / NCOLS * NCOLS :=
            Nat.mul_le_mul_left _ (by omega)
        _ ≤ T := hmle

theorem totalObs_some (signals : List (List Pt)) (NCOLS k : ℕ) :
    totalObs signals NCOLS (some k) = k := rfl

/-- If some lead of the order maps to a collapsed reference pulse, the
whole loop errors with the calibration error (the first bad lead stops
it; leads before it write successfully). -/
theorem vecLoop_calib {NROWS NCOLS : ℕ} {rhythm : List Lead} {cab : Bool}
    {T : ℕ} {ir : List (List ℚ)} {pulses : List (ℕ × ℕ)} :
    ∀ (L : List (ℕ × Lead)) (t : Table),
      (∀ e ∈ L,
        ((pulses.getD (rowFor NROWS rhythm e.1 e.2) (0, 0)).1 =
            (pulses.getD (rowFor NROWS rhythm e.1 e.2) (0, 0)).2 →
          stepCol NROWS NCOLS rhythm cab ir pulses e.1 e.2 =
            .error .calibration) ∧
        ((pulses.getD (rowFor NROWS rhythm e.1 e.2) (0, 0)).1 ≠
            (pulses.getD (rowFor NROWS rhythm e.1 e.2) (0, 0)).2 →
          ∃ c s, stepCol NROWS NCOLS rhythm cab ir pulses e.1 e.2 =
              .ok (c, s) ∧ s.length * (c + 1) ≤ T)) →
      (∃ e ∈ L, (pulses.getD (rowFor NROWS rhythm e.1 e.2) (0, 0)).1 =
        (pulses.getD (rowFor NROWS rhythm e.1 e.2) (0, 0)).2) →
      vecLoop NROWS NCOLS rhythm cab T ir pulses t L = .error .calibration
  | [], _, _, hbad => absurd hbad (by simp)
  | e :: rest, t, hstep, hbad => by
    by_cases hb : (pulses.getD (rowFor NROWS rhythm e.1 e.2) (0, 0)).1 =
        (pulses.getD (rowFor NROWS rhythm e.1 e.2) (0, 0)).2
    · have hcal := (hstep e (by simp)).1 hb
      unfold vecLoop vecStep
      rw [hcal]
    · obtain ⟨c, s, hok, hbnd⟩ := (hstep e (by simp)).2 hb
      have hs : vecStep NROWS NCOLS rhythm cab T ir pulses t e =
          .ok (fun ℓ2 => if ℓ2 = e.2 then
            splice (t e.2) (s.length * c) s else t ℓ2) := by
        unfold vecStep
        rw [hok]
        dsimp only
        rw [if_pos hbnd]
      unfold vecLoop
      rw [hs]
      apply vecLoop_calib rest
      · intro x hx
        exact hstep x (List.mem_cons_of_mem e hx)
      · obtain ⟨x, hx, hxbad⟩ := hbad
        rcases List.mem_cons.mp hx with h1 | h1
        · exact absurd (h1 ▸ hxbad) hb
        · exact ⟨x, h1, hxbad⟩

/-- C5: if any lead used by the mapping reads a collapsed reference
pulse (v0 = v1), __vectorize raises the calibration error before
scaling any voltage of that lead: division by `v0 - v1` happens only
behind the `volt_0 == volt_1` check. -/
theorem c5_collapsed_pulse_errors {NROWS NCOLS : ℕ} {rhythm : List Lead}
    {cab : Bool} {interp : Option ℕ} {signals : List (List Pt)}
    {pulses : List (ℕ × ℕ)}
    (hr : 1 ≤ NROWS) (hc : 1 ≤ NCOLS) (hl : 12 ≤ NROWS * NCOLS)
    (hsig : signals.length = NROWS + rhythm.length)
    (hpul : pulses.length = NROWS + rhythm.length)
    (hlen : ∀ s ∈ signals, 2 ≤ s.length)
    (hbad : ∃ e ∈ (if cab then CABRERA else STANDARD).enum,
        (pulses.getD (rowFor NROWS rhythm e.1 e.2) (0, 0)).1 =
        (pulses.getD (rowFor NROWS rhythm e.1 e.2) (0, 0)).2) :
    vectorize NROWS NCOLS rhythm cab interp signals pulses =
      .error .calibration := by
  have hne : signals ≠ [] := by
    intro hz
    rw [hz] at hsig
    simp at hsig
    omega
  have hany : ¬(signals.any (fun s => decide (s.length < 2)) = true) := by
    intro hcon
    rw [List.any_eq_true] at hcon
    obtain ⟨s, hs, hdec⟩ := hcon
    have h1 := hlen s hs
    have h2 := of_decide_eq_true hdec
    omega
  unfold vectorize
  rw [if_neg hne, if_neg hany]
  dsimp only
  apply vecLoop_calib _ _ ?_ hbad
  intro e he
  have hi : e.1 < 12 := by
    have hfst := enum_mem_fst_lt he
    have hlen12 : (if cab then CABRERA else STANDARD).length = 12 := by
      cases cab <;> rfl
    rw [hlen12] at hfst
    exact hfst
  constructor
  · intro hbadE
    exact stepCol_calib (by rw [hpul]; exact rowFor_lt hr) hbadE
  · intro hneE
    obtain ⟨c, s, hok, _, hbnd, _⟩ :=
      @stepCol_ok_bound _ _ _ cab interp _ _ _ _ hr hc hl hi hsig
        hpul hneE
    exact ⟨c, s, hok, hbnd⟩

/-- Witness for C5 at a concrete input: layout (3,4), no rhythm strips,
row 0 carries the collapsed pulse (5, 5) and is used by lead I. -/
theorem c5_collapsed_pulse_errors_witness :
    vectorize 3 4 [] false none sig5 pulses5 = .error .calibration :=
  c5_collapsed_pulse_errors (by decide) (by decide) (by decide)
    (by decide) (by decide) (by decide)
    ⟨(0, Lead.I), by decide, by decide⟩

/-- The count of non-missing entries of any lead column of a successful
__vectorize run: `total_obs` for rhythm leads, `total_obs / NCOLS` for
panel leads. -/
theorem vectorize_countSome {NROWS NCOLS : ℕ} {rhythm : List Lead}
    {cab : Bool} {interp : Option ℕ} {signals : List (List Pt)}
    {pulses : List (ℕ × ℕ)} {t : Table}
    (hr : 1 ≤ NROWS) (hc : 1 ≤ NCOLS) (hl : 12 ≤ NROWS * NCOLS)
    (hsig : signals.length = NROWS + rhythm.length)
    (hpul : pulses.length = NROWS + rhythm.length)
    (h : vectorize NROWS NCOLS rhythm cab interp signals pulses = .ok t)
    (ℓ : Lead) :
    countSome (t ℓ) = if ℓ ∈ rhythm then totalObs signals NCOLS interp
      else totalObs signals NCOLS interp / NCOLS := by
  obtain ⟨i, hi, he⟩ := lead_mem_enum cab ℓ
  obtain ⟨c, s, hsc, hbnd, hcol⟩ := vectorize_column h he
  obtain ⟨hrp, hneE, hri⟩ := stepCol_ok_inv0 hsc
  obtain ⟨c2, s2, hok2, hslen, hbnd2, hcdef⟩ :=
    @stepCol_ok_bound _ _ _ cab interp _ _ _ _ hr hc hl hi hsig
      hpul hneE
  rw [hok2] at hsc
  have hp : (c2, s2) = (c, s) := Except.ok.inj hsc
  have hceq : c2 = c := congrArg Prod.fst hp
  have hseq : s2 = s := congrArg Prod.snd hp
  rw [hcol, countSome_splice_replicate]
  · rw [← hseq, hslen]
  · have hx : s.length * (c + 1) = s.length * c + s.length := by ring
    omega

/-- C8, amended: with `interpolation = k` each lead occupies exactly one
grid cell, so a panel lead's column holds `k / NCOLS` non-missing
entries and a rhythm lead's column holds k; only when NCOLS = 1 or the
lead is a rhythm strip does a column hold k entries. -/
theorem c8_amended {NROWS NCOLS k : ℕ} {rhythm : List Lead} {cab : Bool}
    {signals : List (List Pt)} {pulses : List (ℕ × ℕ)} {t : Table}
    (hr : 1 ≤ NROWS) (hc : 1 ≤ NCOLS) (hl : 12 ≤ NROWS * NCOLS)
    (hsig : signals.length = NROWS + rhythm.length)
    (hpul : pulses.length = NROWS + rhythm.length)
    (h : vectorize NROWS NCOLS rhythm cab (some k) signals pulses = .ok t)
    (ℓ : Lead) :
    countSome (t ℓ) = if ℓ ∈ rhythm then k else k / NCOLS := by
  have hcount := vectorize_countSome hr hc hl hsig hpul h ℓ
  rw [totalObs_some] at hcount
  exact hcount

/-- Witness for the amended C8: the concrete run of the C8
counterexample, seen through the amended statement (lead I gets
8 / 4 = 2 entries). -/
theorem c8_amended_witness :
    ∃ t, vectorize 3 4 [] false (some 8) sig8 pulses8 = .ok t ∧
      countSome (t Lead.I) = 2 := by
  have hok : isOkB (vectorize 3 4 [] false (some 8) sig8 pulses8)
      = true := by decide
  obtain ⟨t, ht⟩ := isOkB_eq_true hok
  refine ⟨t, ht, ?_⟩
  have := c8_amended (by decide) (by decide) (by decide) (by decide)
    (by decide) ht Lead.I
  rw [this]
  decide

/-- C10: a rhythm lead's column is filled from the full-width rhythm
row `rhythm.index(lead) + layout.rows` with all `total_obs` resampled
observations - the column holds no missing entry, so the panel cell the
layout would otherwise assign the lead is never written - while every
non-rhythm lead's column holds `total_obs / NCOLS` entries. -/
theorem c10_rhythm_column {NROWS NCOLS : ℕ} {rhythm : List Lead}
    {cab : Bool} {interp : Option ℕ} {signals : List (List Pt)}
    {pulses : List (ℕ × ℕ)} {t : Table}
    (hr : 1 ≤ NROWS) (hc : 1 ≤ NCOLS) (hl : 12 ≤ NROWS * NCOLS)
    (hsig : signals.length = NROWS + rhythm.length)
    (hpul : pulses.length = NROWS + rhythm.length)
    (h : vectorize NROWS NCOLS rhythm cab interp signals pulses = .ok t)
    {ℓ : Lead} (hmem : ℓ ∈ rhythm) :
    t ℓ = (let r := idxOf ℓ rhythm + NROWS
      let v := pulses.getD r (0, 0)
      let base := scaleSig v.1 v.2
        (interpRow (totalObs signals NCOLS interp) (signals.getD r []))
      (if cab ∧ ℓ = Lead.aVR then base.map (fun q => -q) else base).map
        some) ∧
    countSome (t ℓ) = totalObs signals NCOLS interp ∧
    ∀ ℓ2, ℓ2 ∉ rhythm →
      countSome (t ℓ2) = totalObs signals NCOLS interp / NCOLS := by
  obtain ⟨i, hi, he⟩ := lead_mem_enum cab ℓ
  obtain ⟨c, s, hsc, hbnd, hcol⟩ := vectorize_column h he
  obtain ⟨hrp, hneE, hri⟩ := stepCol_ok_inv0 hsc
  have hrr : rowFor NROWS rhythm i ℓ = idxOf ℓ rhythm + NROWS := by
    unfold rowFor
    rw [if_pos hmem]
  have hst := @stepCol_ok_rhythm _ NCOLS _ cab _ _ _ _ hmem hrp hri
    hneE
  rw [hst] at hsc
  have hp := Except.ok.inj hsc
  have hceq : 0 = c := congrArg Prod.fst hp
  have hsR := congrArg Prod.snd hp
  dsimp only at hsR
  have hrowlt : rowFor NROWS rhythm i ℓ < signals.length := by
    rw [List.length_map] at hri
    exact hri
  have hrow : (signals.map (interpRow (totalObs signals NCOLS
      interp))).getD (rowFor NROWS rhythm i ℓ) [] =
      interpRow (totalObs signals NCOLS interp)
        (signals.getD (rowFor NROWS rhythm i ℓ) []) :=
    getD_map_of_lt _ _ _ _ [] hrowlt
  have hXlen : ((signals.map (interpRow (totalObs signals NCOLS
      interp))).getD (rowFor NROWS rhythm i ℓ) []).length =
      totalObs signals NCOLS interp := by
    rw [hrow, interpRow_length]
  have hslen : s.length = totalObs signals NCOLS interp := by
    rw [← hsR]
    split
    · rw [List.length_map, scaleSig, List.length_map, hXlen]
    · rw [scaleSig, List.length_map, hXlen]
  refine ⟨?_, ?_, ?_⟩
  · rw [hcol, ← hceq, Nat.mul_zero]
    unfold splice
    rw [List.take_zero, Nat.zero_add, hslen, List.drop_replicate]
    simp only [Nat.sub_self, List.replicate_zero, List.nil_append,
      List.append_nil]
    rw [← hsR, hrow, hrr]
  · have hcount := vectorize_countSome hr hc hl hsig hpul h ℓ
    rw [if_pos hmem] at hcount
    exact hcount
  · intro ℓ2 hℓ2
    have hcount := vectorize_countSome hr hc hl hsig hpul h ℓ2
    rw [if_neg hℓ2] at hcount
    exact hcount

/-- Witness for C10: layout (3,4) with rhythm strip II; the column of
II is the fully scaled rhythm row (4 non-missing entries out of 4),
lead I keeps 4 / 4 = 1 entry. -/
theorem c10_rhythm_column_witness :
    ∃ t, vectorize 3 4 [Lead.II] false none sigs10 pulses10 = .ok t ∧
      t Lead.II = [some 0, some 1, some 0, some 0] ∧
      countSome (t Lead.I) = 1 := by
  have hok : isOkB (vectorize 3 4 [Lead.II] false none sigs10 pulses10)
      = true := by decide
  obtain ⟨t, ht⟩ := isOkB_eq_true hok
  obtain ⟨hcolumn, hcnt, hother⟩ := c10_rhythm_column (by decide)
    (by decide) (by decide) (by decide) (by decide) ht
    (show Lead.II ∈ [Lead.II] by decide)
  refine ⟨t, ht, ?_, ?_⟩
  · rw [hcolumn]
    decide
  · rw [hother Lead.I (by decide)]
    decide

theorem stepCol_cab_ne_aVR {NROWS NCOLS : ℕ} {rhythm : List Lead}
    {ir : List (List ℚ)} {pulses : List (ℕ × ℕ)} {i : ℕ} {ℓ : Lead}
    (hne : ℓ ≠ Lead.aVR) :
    stepCol NROWS NCOLS rhythm true ir pulses i ℓ =
      stepCol NROWS NCOLS rhythm false ir pulses i ℓ := by
  unfold stepCol
  simp [hne]

theorem stepCol_true_aVR {NROWS NCOLS : ℕ} {rhythm : List Lead}
    {ir : List (List ℚ)} {pulses : List (ℕ × ℕ)} {i : ℕ} :
    stepCol NROWS NCOLS rhythm true ir pulses i Lead.aVR =
      Except.map (fun p : ℕ × List ℚ => (p.1, p.2.map (fun q => -q)))
        (stepCol NROWS NCOLS rhythm false ir pulses i Lead.aVR) := by
  unfold stepCol
  dsimp only
  split
  · rfl
  · split
    · rfl
    · split
      · rfl
      · simp [Except.map]

/-- Columns of leads that keep the same position in the STANDARD and
CABRERA orders (and are not aVR) coincide between the two runs. -/
theorem column_eq_of_common {NROWS NCOLS : ℕ} {rhythm : List Lead}
    {interp : Option ℕ} {signals : List (List Pt)}
    {pulses : List (ℕ × ℕ)} {tS tC : Table}
    (hS : vectorize NROWS NCOLS rhythm false interp signals pulses =
      .ok tS)
    (hC : vectorize NROWS NCOLS rhythm true interp signals pulses =
      .ok tC)
    {ℓ : Lead} {i : ℕ} (hnaVR : ℓ ≠ Lead.aVR)
    (heS : (i, ℓ) ∈ STANDARD.enum) (heC : (i, ℓ) ∈ CABRERA.enum) :
    tC ℓ = tS ℓ := by
  obtain ⟨cS, sS, hscS, _, hcolS⟩ := vectorize_column hS heS
  obtain ⟨cC, sC, hscC, _, hcolC⟩ := vectorize_column hC heC
  rw [stepCol_cab_ne_aVR hnaVR, hscS] at hscC
  have hp := Except.ok.inj hscC
  have hc1 : cS = cC := congrArg Prod.fst hp
  have hs1 : sS = sC := congrArg Prod.snd hp
  rw [hcolC, hcolS, hc1, hs1]

/-- C6, amended: with cabrera = true every lead is read from the grid
cell the Cabrera ordering assigns it and only aVR's samples are negated
after scaling.  Hence the V1-V6 columns (same position in both
orderings) are bitwise equal between the two runs, and the aVR column
equals the elementwise negation of the scaled samples taken at aVR's
Cabrera position (index 2 of the order) - not the negation of the
standard run's aVR column. -/
theorem c6_amended {NROWS NCOLS : ℕ} {rhythm : List Lead}
    {interp : Option ℕ} {signals : List (List Pt)}
    {pulses : List (ℕ × ℕ)} {tS tC : Table}
    (hS : vectorize NROWS NCOLS rhythm false interp signals pulses =
      .ok tS)
    (hC : vectorize NROWS NCOLS rhythm true interp signals pulses =
      .ok tC) :
    (∀ ℓ ∈ ([Lead.V1, Lead.V2, Lead.V3, Lead.V4, Lead.V5, Lead.V6] :
      List Lead), tC ℓ = tS ℓ) ∧
    ∃ c scaled,
      stepCol NROWS NCOLS rhythm false
          (signals.map (interpRow (totalObs signals NCOLS interp)))
          pulses 2 Lead.aVR = .ok (c, scaled) ∧
      tC Lead.aVR = splice
        (List.replicate (totalObs signals NCOLS interp) (none : Option ℚ))
        (scaled.length * c) (scaled.map (fun q => -q)) := by
  constructor
  · intro ℓ hmem
    fin_cases hmem
    · exact column_eq_of_common hS hC (by decide) (i := 6) (by decide)
        (by decide)
    · exact column_eq_of_common hS hC (by decide) (i := 7) (by decide)
        (by decide)
    · exact column_eq_of_common hS hC (by decide) (i := 8) (by decide)
        (by decide)
    · exact column_eq_of_common hS hC (by decide) (i := 9) (by decide)
        (by decide)
    · exact column_eq_of_common hS hC (by decide) (i := 10) (by decide)
        (by decide)
    · exact column_eq_of_common hS hC (by decide) (i := 11) (by decide)
        (by decide)
  · have heC : ((2 : ℕ), Lead.aVR) ∈ CABRERA.enum := by decide
    obtain ⟨cT, sT, hscT, hbndT, hcolT⟩ := vectorize_column hC heC
    rw [stepCol_true_aVR] at hscT
    cases hF : stepCol NROWS NCOLS rhythm false
        (signals.map (interpRow (totalObs signals NCOLS interp))) pulses
        2 Lead.aVR with
    | error x => rw [hF] at hscT; cases hscT
    | ok p =>
      rw [hF] at hscT
      obtain ⟨cF, sF⟩ := p
      have hp := Except.ok.inj hscT
      have hc1 : cF = cT := congrArg Prod.fst hp
      have hs1 : sF.map (fun q => -q) = sT := congrArg Prod.snd hp
      refine ⟨cF, sF, rfl, ?_⟩
      rw [hcolT, ← hs1, ← hc1, List.length_map]

/-- Witness for the amended C6: the concrete run of the C6
counterexample, seen through the amended statement (V columns equal). -/
theorem c6_amended_witness :
    ∃ tS tC, vectorize 3 4 [] false none sigs6 pulses6 = .ok tS ∧
      vectorize 3 4 [] true none sigs6 pulses6 = .ok tC ∧
      ∀ ℓ ∈ ([Lead.V1, Lead.V2, Lead.V3, Lead.V4, Lead.V5, Lead.V6] :
        List Lead), tC ℓ = tS ℓ := by
  have hokS : isOkB (vectorize 3 4 [] false none sigs6 pulses6) = true :=
    by decide
  have hokC : isOkB (vectorize 3 4 [] true none sigs6 pulses6) = true :=
    by decide
  obtain ⟨tS, htS⟩ := isOkB_eq_true hokS
  obtain ⟨tC, htC⟩ := isOkB_eq_true hokC
  exact ⟨tS, tC, htS, htC, (c6_amended htS htC).1⟩

theorem pulses_zip_fst {raws : List (List Pt)} {pulses : List (ℕ × ℕ)}
    {X : List ℕ} (hX : X.length = raws.length)
    (hpul : pulses = (raws.map (fun s => (s.getLastD ⟨0, 0⟩).y)).zip X)
    (i : ℕ) (hi : i < raws.length) :
    (pulses.getD i (0, 0)).1 = ((raws.getD i []).getLastD ⟨0, 0⟩).y := by
  rw [hpul, getD_zip_of_lt _ _ i 0 0 (by simpa using hi)
    (by rw [hX]; exact hi)]
  exact getD_map_of_lt _ raws i 0 [] hi

/-- C4, amended: the anchor ordinate v0 of every row is the y of the
polyline's LAST point, for both values of rp_at_right - `first_pixels`
is computed as `pulso[-1].y` before the direction of the walk is even
chosen. -/
theorem c4_amended {raws : List (List Pt)} {rp : Bool}
    {sigs : List (List Pt)} {pulses : List (ℕ × ℕ)}
    (h : segment raws rp = .ok (sigs, pulses)) (i : ℕ)
    (hi : i < raws.length) :
    (pulses.getD i (0, 0)).1 = ((raws.getD i []).getLastD ⟨0, 0⟩).y := by
  unfold segment at h
  split at h
  · cases h
  · dsimp only at h
    cases hm : segCut raws rp with
    | none => rw [hm] at h; cases h
    | some cut =>
      rw [hm] at h
      dsimp only at h
      split at h
      · split at h
        · cases h
        · exact pulses_zip_fst (by simp)
            ((congrArg Prod.snd (Except.ok.inj h)).symm) i hi
      · split at h
        · cases h
        · exact pulses_zip_fst (by simp)
            ((congrArg Prod.snd (Except.ok.inj h)).symm) i hi

/-- Witness for the amended C4 at the input of the C4 counterexample:
the recorded v0 is 0, the y of the last point of the row. -/
theorem c4_amended_witness :
    segment raw4 false = .ok ([[⟨4, 0⟩, ⟨5, 0⟩]], [(0, 0)]) ∧
    (([((0 : ℕ), (0 : ℕ))] : List (ℕ × ℕ)).getD 0 (0, 0)).1 =
      ((raw4.getD 0 []).getLastD ⟨0, 0⟩).y := by
  have h : segment raw4 false = .ok ([[⟨4, 0⟩, ⟨5, 0⟩]], [(0, 0)]) := by
    decide
  exact ⟨h, c4_amended h 0 (by decide)⟩

/-- C9: Image.threshold returns None while thresholding in place, so
__binarize returns None; the cv.threshold call of __gridline_removal
receives that None and its result is discarded - the output is the same
whatever the external threshold function computes - and the only
binarisation that reaches the working image is the in-place threshold
at the Otsu level performed inside __binarize. -/
theorem c9_threshold_discarded (img : Img)
    (f g : List (List ℕ) → Option ℕ → ℕ → ℕ × List (List ℕ)) :
    (binarize img).1 = none ∧
    gridlineRemovalCore f img = gridlineRemovalCore g img ∧
    gridlineRemovalCore f img =
      outlineBorders (threshInPlace img (otsuK img) 255) :=
  ⟨rfl, rfl, rfl⟩

/-! Basic lemmas about the DP cache operations. -/

theorem lookupRow_append (s t : Cache) (k : CKey) :
    lookupRow (s ++ t) k =
      match lookupRow s k with
      | some v => some v
      | none => lookupRow t k := by
  induction s with
  | nil => simp [lookupRow]
  | cons e es ih =>
    by_cases he : e.1 = k
    · simp [lookupRow, he]
    · simp only [List.cons_append, lookupRow, if_neg he]
      exact ih

theorem lookupRow_replace_ne (s : Cache) (k : CKey)
    (row : List (Option Cell)) (k' : CKey) (hne : k' ≠ k) :
    lookupRow (s.map (fun e => if e.1 = k then (k, row) else e)) k' =
      lookupRow s k' := by
  induction s with
  | nil => simp [lookupRow]
  | cons e es ih =>
    by_cases he : e.1 = k
    · simp only [List.map_cons, if_pos he, lookupRow]
      rw [if_neg (fun hc => hne hc.symm), if_neg (fun hc => hne (he ▸ hc).symm)]
      exact ih
    · simp only [List.map_cons, if_neg he, lookupRow]
      by_cases hk : e.1 = k'
      · rw [if_pos hk, if_pos hk]
      · rw [if_neg hk, if_neg hk]
        exact ih

theorem lookupRow_replace_self (s : Cache) (k : CKey)
    (row : List (Option Cell)) (hc : containsKey s k = true) :
    lookupRow (s.map (fun e => if e.1 = k then (k, row) else e)) k =
      some row := by
  induction s with
  | nil => simp [containsKey, lookupRow] at hc
  | cons e es ih =>
    by_cases he : e.1 = k
    · simp [lookupRow, he]
    · simp only [List.map_cons, if_neg he, lookupRow, if_neg he]
      apply ih
      unfold containsKey at hc ⊢
      rw [lookupRow, if_neg he] at hc
      exact hc

theorem lookupRow_setKey (s : Cache) (k : CKey)
    (row : List (Option Cell)) (k' : CKey) :
    lookupRow (setKey s k row) k' =
      if k' = k then some row else lookupRow s k' := by
  unfold setKey
  by_cases hc : containsKey s k = true
  · rw [if_pos hc]
    by_cases hk : k' = k
    · subst hk
      rw [if_pos rfl]
      exact lookupRow_replace_self s k' row hc
    · rw [if_neg hk]
      exact lookupRow_replace_ne s k row k' hk
  · rw [if_neg hc, lookupRow_append]
    have hnone : lookupRow s k = none := by
      unfold containsKey at hc
      cases hl : lookupRow s k with
      | none => rfl
      | some v => rw [hl] at hc; simp at hc
    by_cases hk : k' = k
    · subst hk
      rw [hnone, if_pos rfl]
      show lookupRow [(k', row)] k' = some row
      rw [lookupRow, if_pos rfl]
    · rw [if_neg hk]
      cases hl : lookupRow s k' with
      | none =>
        simp only [lookupRow]
        rw [if_neg (fun hcon => hk hcon.symm)]
      | some v => rfl

theorem lookupRow_updateCell (s : Cache) (k : CKey) (i : ℕ) (cell : Cell)
    (k' : CKey) :
    lookupRow (updateCell s k i cell) k' =
      if k' = k then
        (lookupRow s k).map (fun r => r.set i (some cell))
      else lookupRow s k' := by
  unfold updateCell
  induction s with
  | nil => simp [lookupRow]
  | cons e es ih =>
    by_cases he : e.1 = k
    · by_cases hk : k' = k
      · subst hk
        simp only [List.map_cons, if_pos he, lookupRow, if_pos rfl,
          if_pos he]
        rfl
      · simp only [List.map_cons, if_pos he, lookupRow]
        rw [if_neg (fun hc : k = k' => hk hc.symm), if_neg hk,
          if_neg (fun hc : e.1 = k' => hk (he.symm.trans hc).symm), ih,
          if_neg hk]
    · simp only [List.map_cons, if_neg he, lookupRow]
      by_cases hke : e.1 = k'
      · have hk : ¬(k' = k) := fun hc => he (hke.trans hc)
        rw [if_pos hke, if_neg hk, if_pos hke]
      · rw [if_neg hke, if_neg hke, ih]

theorem containsKey_setKey (s : Cache) (k : CKey)
    (row : List (Option Cell)) (k' : CKey)
    (h : containsKey s k' = true) :
    containsKey (setKey s k row) k' = true := by
  unfold containsKey at h ⊢
  rw [lookupRow_setKey]
  by_cases hk : k' = k
  · rw [if_pos hk]; rfl
  · rw [if_neg hk]; exact h

theorem containsKey_updateCell (s : Cache) (k : CKey) (i : ℕ)
    (cell : Cell) (k' : CKey) (h : containsKey s k' = true) :
    containsKey (updateCell s k i cell) k' = true := by
  unfold containsKey at h ⊢
  rw [lookupRow_updateCell]
  by_cases hk : k' = k
  · rw [if_pos hk]
    rw [hk] at h
    cases hl : lookupRow s k with
    | none => rw [hl] at h; simp at h
    | some v => rfl
  · rw [if_neg hk]; exact h

theorem lookupRow_mem {s : Cache} {k : CKey} {row : List (Option Cell)}
    (h : lookupRow s k = some row) : (k, row) ∈ s := by
  induction s with
  | nil => simp [lookupRow] at h
  | cons e es ih =>
    unfold lookupRow at h
    split at h
    · have he : e.1 = k := by assumption
      have hrow : e.2 = row := Option.some.inj h
      have : e = (k, row) := by
        cases e
        simp at he hrow
        rw [he, hrow]
      rw [← this]
      simp
    · exact List.mem_cons_of_mem e (ih h)

theorem getD_set_self {α : Type} (l : List α) (i : ℕ) (v d : α)
    (h : i < l.length) : (l.set i v).getD i d = v := by
  induction l generalizing i with
  | nil => simp at h
  | cons x xs ih =>
    cases i with
    | zero => rfl
    | succ j => exact ih j (by simpa using h)

theorem getD_set_ne {α : Type} (l : List α) (i j : ℕ) (v d : α)
    (h : i ≠ j) : (l.set i v).getD j d = l.getD j d := by
  induction l generalizing i j with
  | nil => rfl
  | cons x xs ih =>
    cases i with
    | zero =>
      cases j with
      | zero => exact absurd rfl h
      | succ j2 => rfl
    | succ i2 =>
      cases j with
      | zero => rfl
      | succ j2 => exact ih i2 j2 (fun hc => h (by rw [hc]))

theorem foldl_pick_mem (rest : List (Cluster × ℚ)) (acc : Cluster × ℚ) :
    rest.foldl (fun b x => if x.2 < b.2 then x else b) acc = acc ∨
      rest.foldl (fun b x => if x.2 < b.2 then x else b) acc ∈ rest := by
  induction rest generalizing acc with
  | nil => exact Or.inl rfl
  | cons x xs ih =>
    rcases ih (if x.2 < acc.2 then x else acc) with h1 | h1
    · rw [List.foldl_cons, h1]
      split
    -- if the pick is x it is a member, else it is acc
      · exact Or.inr (by simp)
      · exact Or.inl rfl
    · exact Or.inr (List.mem_cons_of_mem x h1)

theorem foldl_pick_le (rest : List (Cluster × ℚ)) (acc : Cluster × ℚ) :
    (rest.foldl (fun b x => if x.2 < b.2 then x else b) acc).2 ≤ acc.2 ∧
    ∀ x ∈ rest,
      (rest.foldl (fun b x => if x.2 < b.2 then x else b) acc).2 ≤ x.2 := by
  induction rest generalizing acc with
  | nil => exact ⟨le_refl _, by simp⟩
  | cons x xs ih =>
    obtain ⟨h1, h2⟩ := ih (if x.2 < acc.2 then x else acc)
    have hpick : (if x.2 < acc.2 then x else acc).2 ≤ acc.2 ∧
        (if x.2 < acc.2 then x else acc).2 ≤ x.2 := by
      split
      · exact ⟨le_of_lt (by assumption), le_refl _⟩
      · exact ⟨le_refl _, le_of_not_lt (by assumption)⟩
    constructor
    · rw [List.foldl_cons]
      exact le_trans h1 hpick.1
    · intro y hy
      rcases List.mem_cons.mp hy with h3 | h3
      · rw [List.foldl_cons, h3]
        exact le_trans h1 hpick.2
      · rw [List.foldl_cons]
        exact h2 y h3

theorem bestOf_mem {l : List (Cluster × ℚ)} {b : Cluster × ℚ}
    (h : bestOf l = some b) : b ∈ l := by
  cases l with
  | nil => cases h
  | cons e rest =>
    unfold bestOf at h
    have hb := Option.some.inj h
    rcases foldl_pick_mem rest e with h1 | h1
    · rw [← hb, h1]
      simp
    · rw [← hb]
      exact List.mem_cons_of_mem e h1

theorem bestOf_le {l : List (Cluster × ℚ)} {b : Cluster × ℚ}
    (h : bestOf l = some b) : ∀ x ∈ l, b.2 ≤ x.2 := by
  cases l with
  | nil => cases h
  | cons e rest =>
    unfold bestOf at h
    have hb := Option.some.inj h
    intro x hx
    rcases List.mem_cons.mp hx with h3 | h3
    · rw [← hb, h3]
      exact (foldl_pick_le rest e).1
    · rw [← hb]
      exact (foldl_pick_le rest e).2 x h3

theorem bestOf_isSome {l : List (Cluster × ℚ)} (h : l ≠ []) :
    ∃ b, bestOf l = some b := by
  cases l with
  | nil => exact absurd rfl h
  | cons e rest => exact ⟨_, rfl⟩

/-! The effect of one column of the tracer on the cache. -/

theorem lookupRow_ensureNode_self (n : ℕ) (s : Cache) (col : ℕ)
    (pc : Cluster) :
    lookupRow (ensureNode n s col pc) (col - 1, pc) =
      some (nodeValRow s n col pc) := by
  unfold ensureNode nodeValRow
  by_cases hc : containsKey s (col - 1, pc) = true
  · rw [if_pos hc]
    unfold containsKey at hc
    cases hl : lookupRow s (col - 1, pc) with
    | none => rw [hl] at hc; simp at hc
    | some row => rfl
  · rw [if_neg hc, lookupRow_setKey, if_pos rfl]
    have hnone : lookupRow s (col - 1, pc) = none := by
      unfold containsKey at hc
      cases hl : lookupRow s (col - 1, pc) with
      | none => rfl
      | some v => rw [hl] at hc; simp at hc
    rw [hnone]

theorem lookupRow_ensureNode_ne (n : ℕ) (s : Cache) (col : ℕ)
    (pc : Cluster) (k : CKey) (hk : k ≠ (col - 1, pc)) :
    lookupRow (ensureNode n s col pc) k = lookupRow s k := by
  unfold ensureNode
  split
  · rfl
  · rw [lookupRow_setKey, if_neg hk]

theorem lookupRow_ensureNode_some (n : ℕ) (s : Cache) (col : ℕ)
    (pc : Cluster) (k : CKey) (v : List (Option Cell))
    (h : lookupRow s k = some v) :
    lookupRow (ensureNode n s col pc) k = some v := by
  by_cases hk : k = (col - 1, pc)
  · subst hk
    rw [lookupRow_ensureNode_self]
    unfold nodeValRow
    rw [h]
  · rw [lookupRow_ensureNode_ne n s col pc k hk, h]

theorem nodeValRow_ensureNode (n : ℕ) (s : Cache) (col : ℕ)
    (pc pc2 : Cluster) :
    nodeValRow (ensureNode n s col pc2) n col pc =
      nodeValRow s n col pc := by
  by_cases hp : pc = pc2
  · subst hp
    unfold nodeValRow
    rw [lookupRow_ensureNode_self]
    rfl
  · unfold nodeValRow
    rw [lookupRow_ensureNode_ne n s col pc2 (col - 1, pc)
      (fun hc => hp (congrArg Prod.snd hc))]

theorem nodeValRow_setKey_col (n : ℕ) (s : Cache) (col : ℕ)
    (c : Cluster) (row : List (Option Cell)) (pc : Cluster)
    (hcol : 1 ≤ col) :
    nodeValRow (setKey s (col, c) row) n col pc =
      nodeValRow s n col pc := by
  unfold nodeValRow
  rw [lookupRow_setKey, if_neg]
  intro hc
  have := congrArg Prod.fst hc
  simp at this
  omega

theorem nodeValRow_updateCell_col (n : ℕ) (s : Cache) (col : ℕ)
    (c : Cluster) (i : ℕ) (cell : Cell) (pc : Cluster) (hcol : 1 ≤ col) :
    nodeValRow (updateCell s (col, c) i cell) n col pc =
      nodeValRow s n col pc := by
  unfold nodeValRow
  rw [lookupRow_updateCell, if_neg]
  intro hc
  have := congrArg Prod.fst hc
  simp at this
  omega

theorem costsGo_spec (w n : ℕ) (rois : List ℕ) (roiI col : ℕ)
    (c : Cluster) (s0 : Cache) :
    ∀ (pcs : List Cluster) (s : Cache) (acc : List (Cluster × ℚ)),
    (∀ pc, nodeValRow s n col pc = nodeValRow s0 n col pc) →
    (costsGo w n rois roiI col c pcs s acc).2 =
        acc ++ specCosts w n rois roiI col pcs c s0 ∧
    (∀ pc, nodeValRow (costsGo w n rois roiI col c pcs s acc).1 n col pc
      = nodeValRow s0 n col pc) ∧
    (∀ k v, lookupRow s k = some v →
      lookupRow (costsGo w n rois roiI col c pcs s acc).1 k = some v) ∧
    (∀ pc ∈ pcs,
      lookupRow (costsGo w n rois roiI col c pcs s acc).1 (col - 1, pc) =
        some (nodeValRow s0 n col pc)) ∧
    (∀ k, k.1 ≠ col - 1 →
      lookupRow (costsGo w n rois roiI col c pcs s acc).1 k =
        lookupRow s k) := by
  intro pcs
  induction pcs with
  | nil =>
    intro s acc hNV
    refine ⟨by simp [costsGo, specCosts], hNV, ?_, by simp, ?_⟩
    · intro k v h
      exact h
    · intro k _
      rfl
  | cons pc pcs ih =>
    intro s acc hNV
    have hNV1 : ∀ pc2, nodeValRow (ensureNode n s col pc) n col pc2 =
        nodeValRow s0 n col pc2 := by
      intro pc2
      rw [nodeValRow_ensureNode]
      exact hNV pc2
    obtain ⟨ih1, ih2, ih3, ih4, ih5⟩ :=
      ih (ensureNode n s col pc)
        (acc ++ [(pc, costOf w rois roiI (ensureNode n s col pc) col pc c)])
        hNV1
    have hcost : costOf w rois roiI (ensureNode n s col pc) col pc c =
        (nodeCellAt s0 n col pc roiI).score
          + |(ctrOf pc : ℚ) - (rois.getD roiI 0 : ℚ)|
          + ((w : ℚ) / 10) * (gap pc c : ℚ) := by
      unfold costOf
      have hl : lookupCell (ensureNode n s col pc) (col - 1, pc) roiI =
          (nodeValRow s0 n col pc).getD roiI none := by
        unfold lookupCell
        rw [lookupRow_ensureNode_self]
        rw [hNV pc]
        rfl
      rw [hl]
      rfl
    refine ⟨?_, ih2, ?_, ?_, ?_⟩
    · show (costsGo w n rois roiI col c pcs (ensureNode n s col pc)
        (acc ++ [(pc, costOf w rois roiI (ensureNode n s col pc) col pc
          c)])).2 = acc ++ specCosts w n rois roiI col (pc :: pcs) c s0
      rw [ih1, hcost]
      unfold specCosts
      rw [List.map_cons, List.append_assoc]
      rfl
    · intro k v h
      exact ih3 k v (lookupRow_ensureNode_some n s col pc k v h)
    · intro pc2 hpc2
      rcases List.mem_cons.mp hpc2 with h1 | h1
      · subst h1
        apply ih3
        rw [lookupRow_ensureNode_self, hNV pc2]
      · exact ih4 pc2 h1
    · intro k hk
      rw [costsGo]
      rw [ih5 k hk]
      exact lookupRow_ensureNode_ne n s col pc k
        (fun hc => hk (by rw [hc]))

theorem specCosts_ne_nil {w n : ℕ} {rois : List ℕ} {roiI col : ℕ}
    {prevCls : List Cluster} {c : Cluster} {s0 : Cache}
    (h : prevCls ≠ []) :
    specCosts w n rois roiI col prevCls c s0 ≠ [] := by
  unfold specCosts
  simpa using h

theorem roiStep_spec {w n : ℕ} {rois : List ℕ} {col : ℕ}
    {prevCls : List Cluster} {c : Cluster} {s s0 : Cache} {roiI : ℕ}
    (hcol : 1 ≤ col) (hne : prevCls ≠ [])
    (hNV : ∀ pc, nodeValRow s n col pc = nodeValRow s0 n col pc)
    {rowCur : List (Option Cell)}
    (hrow : lookupRow s (col, c) = some rowCur) :
    lookupRow (roiStep w n rois col prevCls c s roiI) (col, c) =
      some (rowCur.set roiI (specCell w n rois roiI col prevCls c s0)) ∧
    (∀ pc, nodeValRow (roiStep w n rois col prevCls c s roiI) n col pc =
      nodeValRow s0 n col pc) ∧
    (∀ k, k.1 ≠ col - 1 → k ≠ (col, c) →
      lookupRow (roiStep w n rois col prevCls c s roiI) k =
        lookupRow s k) ∧
    (∀ k v, k ≠ (col, c) → lookupRow s k = some v →
      lookupRow (roiStep w n rois col prevCls c s roiI) k = some v) ∧
    (∀ pc ∈ prevCls,
      lookupRow (roiStep w n rois col prevCls c s roiI) (col - 1, pc) =
        some (nodeValRow s0 n col pc)) := by
  obtain ⟨hc2, hNVr, hsome, hmem, hnecol⟩ :=
    costsGo_spec w n rois roiI col c s0 prevCls s [] hNV
  have hcosts : (costsFor w n rois roiI col prevCls c s).2 =
      specCosts w n rois roiI col prevCls c s0 := by
    unfold costsFor
    rw [hc2]
    rfl
  obtain ⟨best, hbest⟩ := bestOf_isSome
    (@specCosts_ne_nil w n rois roiI col prevCls c s0 hne)
  have hbm : best ∈ specCosts w n rois roiI col prevCls c s0 :=
    bestOf_mem hbest
  have hbm2 : best.1 ∈ prevCls := by
    unfold specCosts at hbm
    obtain ⟨pc, hpc, hpceq⟩ := List.mem_map.mp hbm
    rw [← hpceq]
    exact hpc
  have hres : roiStep w n rois col prevCls c s roiI =
      updateCell (costsFor w n rois roiI col prevCls c s).1 (col, c) roiI
        ⟨ctrOf best.1, some (col - 1, best.1),
          ((lookupCell (costsFor w n rois roiI col prevCls c s).1
            (col - 1, best.1) roiI).getD dCell).len + 1, best.2⟩ := by
    unfold roiStep
    dsimp only
    rw [hcosts, hbest]
  have hlkb : lookupCell (costsFor w n rois roiI col prevCls c s).1
      (col - 1, best.1) roiI =
      (nodeValRow s0 n col best.1).getD roiI none := by
    unfold lookupCell costsFor
    rw [hmem best.1 hbm2]
    rfl
  have hcell : specCell w n rois roiI col prevCls c s0 =
      some ⟨ctrOf best.1, some (col - 1, best.1),
        ((lookupCell (costsFor w n rois roiI col prevCls c s).1
          (col - 1, best.1) roiI).getD dCell).len + 1, best.2⟩ := by
    unfold specCell
    rw [hbest, hlkb]
    rfl
  refine ⟨?_, ?_, ?_, ?_, ?_⟩
  · rw [hres, lookupRow_updateCell, if_pos rfl]
    have hl1 : lookupRow (costsFor w n rois roiI col prevCls c s).1
        (col, c) = some rowCur := by
      unfold costsFor
      rw [hnecol (col, c) (by simp; omega)]
      exact hrow
    rw [hl1, hcell]
    rfl
  · intro pc
    rw [hres, nodeValRow_updateCell_col _ _ _ _ _ _ _ hcol]
    exact hNVr pc
  · intro k h1 h2
    rw [hres, lookupRow_updateCell, if_neg h2]
    unfold costsFor
    exact hnecol k h1
  · intro k v h1 h2
    rw [hres, lookupRow_updateCell, if_neg h1]
    unfold costsFor
    exact hsome k v h2
  · intro pc hpc
    rw [hres, lookupRow_updateCell, if_neg (by
      intro hc
      have := congrArg Prod.fst hc
      simp at this
      omega)]
    unfold costsFor
    exact hmem pc hpc

theorem getD_replicate {α : Type} (n i : ℕ) (v d : α) :
    (List.replicate n v).getD i d = if i < n then v else d := by
  induction n generalizing i with
  | zero => simp [List.getD]
  | succ m ih =>
    cases i with
    | zero => simp [List.replicate, List.getD]
    | succ j =>
      rw [List.replicate, List.getD_cons_succ, ih j]
      by_cases hj : j < m
      · rw [if_pos hj, if_pos (by omega)]
      · rw [if_neg hj, if_neg (by omega)]

theorem foldl_set_length {α : Type} (g : ℕ → α) :
    ∀ (L : List ℕ) (init : List α),
    (L.foldl (fun r j => r.set j (g j)) init).length = init.length := by
  intro L
  induction L with
  | nil => intro init; rfl
  | cons j L ih =>
    intro init
    rw [List.foldl_cons, ih]
    exact List.length_set init j (g j)

theorem foldl_set_getD {α : Type} (g : ℕ → α) (d : α) :
    ∀ (L : List ℕ) (init : List α) (i : ℕ),
    (i ∈ L → i < init.length →
      (L.foldl (fun r j => r.set j (g j)) init).getD i d = g i) ∧
    (i ∉ L →
      (L.foldl (fun r j => r.set j (g j)) init).getD i d =
        init.getD i d) := by
  intro L
  induction L with
  | nil =>
    intro init i
    exact ⟨fun h => absurd h (List.not_mem_nil i), fun _ => rfl⟩
  | cons j L ih =>
    intro init i
    constructor
    · intro hmem hlen
      rw [List.foldl_cons]
      by_cases hiL : i ∈ L
      · exact (ih (init.set j (g j)) i).1 hiL
          (by rw [List.length_set]; exact hlen)
      · have hij : i = j := by
          rcases List.mem_cons.mp hmem with h | h
          · exact h
          · exact absurd h hiL
        rw [(ih (init.set j (g j)) i).2 hiL, hij]
        exact getD_set_self init j (g j) d (hij ▸ hlen)
    · intro hnm
      have h1 : i ≠ j := fun h => hnm (h ▸ List.mem_cons_self j L)
      have h2 : i ∉ L := fun h => hnm (List.mem_cons_of_mem j h)
      rw [List.foldl_cons, (ih (init.set j (g j)) i).2 h2]
      exact getD_set_ne init j i (g j) d (fun h => h1 h.symm)

theorem roiFold_spec {w n : ℕ} {rois : List ℕ} {col : ℕ}
    {prevCls : List Cluster} {c : Cluster} {s0 : Cache}
    (hcol : 1 ≤ col) (hne : prevCls ≠ []) :
    ∀ (L : List ℕ) (s : Cache) (row : List (Option Cell)),
    (∀ pc, nodeValRow s n col pc = nodeValRow s0 n col pc) →
    lookupRow s (col, c) = some row →
    lookupRow (L.foldl (roiStep w n rois col prevCls c) s) (col, c) =
      some (L.foldl (fun r roiI =>
        r.set roiI (specCell w n rois roiI col prevCls c s0)) row) ∧
    (∀ pc, nodeValRow (L.foldl (roiStep w n rois col prevCls c) s)
      n col pc = nodeValRow s0 n col pc) ∧
    (∀ k, k.1 ≠ col - 1 → k ≠ (col, c) →
      lookupRow (L.foldl (roiStep w n rois col prevCls c) s) k =
        lookupRow s k) ∧
    (∀ k v, k ≠ (col, c) → lookupRow s k = some v →
      lookupRow (L.foldl (roiStep w n rois col prevCls c) s) k =
        some v) ∧
    (L ≠ [] → ∀ pc ∈ prevCls,
      lookupRow (L.foldl (roiStep w n rois col prevCls c) s)
        (col - 1, pc) = some (nodeValRow s0 n col pc)) := by
  intro L
  induction L with
  | nil =>
    intro s row hNV hrow
    exact ⟨hrow, hNV, fun _ _ _ => rfl, fun _ _ _ h => h,
      fun h => absurd rfl h⟩
  | cons i L ih =>
    intro s row hNV hrow
    obtain ⟨hr1, hr2, hr3, hr4, hr5⟩ :=
      @roiStep_spec w n rois col prevCls c _ _ i hcol hne hNV _ hrow
    obtain ⟨ih1, ih2, ih3, ih4, _⟩ :=
      ih (roiStep w n rois col prevCls c s i)
        (row.set i (specCell w n rois i col prevCls c s0)) hr2 hr1
    refine ⟨ih1, ih2, ?_, ?_, ?_⟩
    · intro k hk1 hk2
      rw [List.foldl_cons, ih3 k hk1 hk2, hr3 k hk1 hk2]
    · intro k v hk hv
      exact ih4 k v hk (hr4 k v hk hv)
    · intro _ pc hpc
      refine ih4 (col - 1, pc) _ ?_ (hr5 pc hpc)
      intro hk
      have := congrArg Prod.fst hk
      simp at this
      omega

theorem clusterStep_spec {w n : ℕ} {rois : List ℕ} {col : ℕ}
    {prevCls : List Cluster} {c : Cluster} {s s0 : Cache}
    (hcol : 1 ≤ col) (hne : prevCls ≠ [])
    (hNV : ∀ pc, nodeValRow s n col pc = nodeValRow s0 n col pc) :
    (∃ row, lookupRow (clusterStep w n rois col prevCls s c) (col, c) =
        some row ∧ row.length = n ∧
      ∀ roiI, roiI < n → row.getD roiI none =
        specCell w n rois roiI col prevCls c s0) ∧
    (∀ pc, nodeValRow (clusterStep w n rois col prevCls s c) n col pc =
      nodeValRow s0 n col pc) ∧
    (∀ k, k.1 ≠ col - 1 → k ≠ (col, c) →
      lookupRow (clusterStep w n rois col prevCls s c) k =
        lookupRow s k) ∧
    (∀ k v, k ≠ (col, c) → lookupRow s k = some v →
      lookupRow (clusterStep w n rois col prevCls s c) k = some v) ∧
    (1 ≤ n → ∀ pc ∈ prevCls,
      lookupRow (clusterStep w n rois col prevCls s c) (col - 1, pc) =
        some (nodeValRow s0 n col pc)) := by
  have hNV1 : ∀ pc,
      nodeValRow (setKey s (col, c) (List.replicate n none)) n col pc =
        nodeValRow s0 n col pc := by
    intro pc
    rw [nodeValRow_setKey_col n s col c _ pc hcol]
    exact hNV pc
  have hrow1 : lookupRow (setKey s (col, c) (List.replicate n none))
      (col, c) = some (List.replicate n none) := by
    rw [lookupRow_setKey, if_pos rfl]
  obtain ⟨f1, f2, f3, f4, f5⟩ := roiFold_spec hcol hne (List.range n)
    (setKey s (col, c) (List.replicate n none))
    (List.replicate n none) hNV1 hrow1
  have hcs : clusterStep w n rois col prevCls s c =
      (List.range n).foldl (roiStep w n rois col prevCls c)
        (setKey s (col, c) (List.replicate n none)) := rfl
  refine ⟨?_, ?_, ?_, ?_, ?_⟩
  · refine ⟨_, hcs ▸ f1, ?_, ?_⟩
    · rw [foldl_set_length]
      exact List.length_replicate n none
    · intro roiI hroiI
      rw [(foldl_set_getD
        (fun roiI => specCell w n rois roiI col prevCls c s0) none
        (List.range n) (List.replicate n none) roiI).1
        (List.mem_range.mpr hroiI)
        (by rw [List.length_replicate]; exact hroiI)]
  · intro pc
    rw [hcs]
    exact f2 pc
  · intro k hk1 hk2
    rw [hcs, f3 k hk1 hk2, lookupRow_setKey, if_neg hk2]
  · intro k v hk hv
    rw [hcs]
    refine f4 k v hk ?_
    rw [lookupRow_setKey, if_neg hk]
    exact hv
  · intro hn pc hpc
    rw [hcs]
    refine f5 ?_ pc hpc
    intro h
    rw [List.range_eq_nil] at h
    omega

theorem clusterFold_spec {w n : ℕ} {rois : List ℕ} {col : ℕ}
    {prevCls : List Cluster} {s0 : Cache}
    (hcol : 1 ≤ col) (hne : prevCls ≠ []) :
    ∀ (CL : List Cluster) (s : Cache),
    (∀ pc, nodeValRow s n col pc = nodeValRow s0 n col pc) →
    (∀ cur ∈ CL, ∃ row,
      lookupRow (CL.foldl (clusterStep w n rois col prevCls) s)
        (col, cur) = some row ∧ row.length = n ∧
      ∀ roiI, roiI < n → row.getD roiI none =
        specCell w n rois roiI col prevCls cur s0) ∧
    (∀ pc, nodeValRow (CL.foldl (clusterStep w n rois col prevCls) s)
      n col pc = nodeValRow s0 n col pc) ∧
    (∀ k, k.1 ≠ col - 1 → (∀ c2 ∈ CL, k ≠ (col, c2)) →
      lookupRow (CL.foldl (clusterStep w n rois col prevCls) s) k =
        lookupRow s k) ∧
    (∀ k v, (∀ c2 ∈ CL, k ≠ (col, c2)) → lookupRow s k = some v →
      lookupRow (CL.foldl (clusterStep w n rois col prevCls) s) k =
        some v) ∧
    (CL ≠ [] → 1 ≤ n → ∀ pc ∈ prevCls,
      lookupRow (CL.foldl (clusterStep w n rois col prevCls) s)
        (col - 1, pc) = some (nodeValRow s0 n col pc)) := by
  intro CL
  induction CL with
  | nil =>
    intro s hNV
    exact ⟨fun cur h => absurd h (List.not_mem_nil cur), hNV,
      fun _ _ _ => rfl, fun _ _ _ h => h, fun h => absurd rfl h⟩
  | cons c0 CL ih =>
    intro s hNV
    obtain ⟨cs1, cs2, cs3, cs4, cs5⟩ :=
      clusterStep_spec (c := c0) hcol hne hNV
    obtain ⟨ih1, ih2, ih3, ih4, _⟩ :=
      ih (clusterStep w n rois col prevCls s c0) cs2
    simp only [List.foldl_cons]
    refine ⟨?_, ih2, ?_, ?_, ?_⟩
    · intro cur hcur
      by_cases hcL : cur ∈ CL
      · exact ih1 cur hcL
      · have hc0 : cur = c0 := by
          rcases List.mem_cons.mp hcur with h | h
          · exact h
          · exact absurd h hcL
        subst hc0
        obtain ⟨row, hrow, hlen, hvals⟩ := cs1
        refine ⟨row, ?_, hlen, hvals⟩
        refine ih4 (col, cur) row ?_ hrow
        intro c2 hc2 hk
        have : cur = c2 := by
          have := congrArg Prod.snd hk
          simpa using this
        exact hcL (this ▸ hc2)
    · intro k hk1 hk2
      rw [ih3 k hk1 (fun c2 hc2 => hk2 c2 (List.mem_cons_of_mem c0 hc2)),
        cs3 k hk1 (hk2 c0 (List.mem_cons_self c0 CL))]
    · intro k v hk hv
      exact ih4 k v (fun c2 hc2 => hk c2 (List.mem_cons_of_mem c0 hc2))
        (cs4 k v (hk c0 (List.mem_cons_self c0 CL)) hv)
    · intro _ hn pc hpc
      refine ih4 (col - 1, pc) _ ?_ (cs5 hn pc hpc)
      intro c2 hc2 hk
      have := congrArg Prod.fst hk
      simp at this
      omega

theorem colStep_spec {img : Img} {n : ℕ} {rois : List ℕ} {col : ℕ}
    (hcol : 1 ≤ col) (hne : getClusters img (col - 1) ≠ [])
    (s : Cache) :
    (∀ cur ∈ getClusters img col, ∃ row,
      lookupRow (colStep img n rois s col) (col, cur) = some row ∧
      row.length = n ∧
      ∀ roiI, roiI < n → row.getD roiI none =
        specCell img.width n rois roiI col (getClusters img (col - 1))
          cur s) ∧
    (∀ k, k.1 ≠ col - 1 → k.1 ≠ col →
      lookupRow (colStep img n rois s col) k = lookupRow s k) ∧
    (∀ k v, k.1 ≠ col → lookupRow s k = some v →
      lookupRow (colStep img n rois s col) k = some v) ∧
    (getClusters img col ≠ [] → 1 ≤ n →
      ∀ pc ∈ getClusters img (col - 1),
      lookupRow (colStep img n rois s col) (col - 1, pc) =
        some (nodeValRow s n col pc)) := by
  obtain ⟨f1, _, f3, f4, f5⟩ := clusterFold_spec hcol hne
    (getClusters img col) s (fun _ => rfl)
  have hcs : colStep img n rois s col =
      (getClusters img col).foldl
        (clusterStep img.width n rois col (getClusters img (col - 1)))
        s := by
    unfold colStep
    dsimp only
    rw [if_neg hne]
  refine ⟨?_, ?_, ?_, ?_⟩
  · intro cur hcur
    rw [hcs]
    exact f1 cur hcur
  · intro k hk1 hk2
    rw [hcs]
    exact f3 k hk1 (fun c2 _ hk => hk2 (congrArg Prod.fst hk))
  · intro k v hk hv
    rw [hcs]
    exact f4 k v (fun c2 _ hke => hk (congrArg Prod.fst hke)) hv
  · intro hcl hn pc hpc
    rw [hcs]
    exact f5 hcl hn pc hpc

theorem colStep_empty {img : Img} {n : ℕ} {rois : List ℕ} {s : Cache}
    {col : ℕ} (h : getClusters img (col - 1) = []) :
    colStep img n rois s col = s := by
  unfold colStep
  dsimp only
  rw [if_pos h]

theorem colStep_stable {img : Img} {n : ℕ} {rois : List ℕ} {s : Cache}
    {col : ℕ} (hc : 1 ≤ col) (k : CKey) (h1 : k.1 ≠ col)
    (h2 : k.1 ≠ col - 1) :
    lookupRow (colStep img n rois s col) k = lookupRow s k := by
  by_cases hp : getClusters img (col - 1) = []
  · rw [colStep_empty hp]
  · exact (colStep_spec hc hp s).2.1 k h2 h1

theorem colStep_some {img : Img} {n : ℕ} {rois : List ℕ} {s : Cache}
    {col : ℕ} {k : CKey} {v : List (Option Cell)} (hc : 1 ≤ col)
    (h1 : k.1 ≠ col) (hv : lookupRow s k = some v) :
    lookupRow (colStep img n rois s col) k = some v := by
  by_cases hp : getClusters img (col - 1) = []
  · rw [colStep_empty hp]
    exact hv
  · exact (colStep_spec hc hp s).2.2.1 k v h1 hv

theorem foldl_colStep_stable {img : Img} {n : ℕ} {rois : List ℕ} :
    ∀ (L : List ℕ) (s : Cache) (k : CKey),
    (∀ col2 ∈ L, 1 ≤ col2 ∧ k.1 ≠ col2 ∧ k.1 ≠ col2 - 1) →
    lookupRow (L.foldl (colStep img n rois) s) k = lookupRow s k := by
  intro L
  induction L with
  | nil => intro s k _; rfl
  | cons c0 L ih =>
    intro s k h
    rw [List.foldl_cons,
      ih (colStep img n rois s c0) k
        (fun c2 hc2 => h c2 (List.mem_cons_of_mem c0 hc2)),
      colStep_stable (h c0 (List.mem_cons_self c0 L)).1 k
        (h c0 (List.mem_cons_self c0 L)).2.1
        (h c0 (List.mem_cons_self c0 L)).2.2]

theorem foldl_colStep_some {img : Img} {n : ℕ} {rois : List ℕ} :
    ∀ (L : List ℕ) (s : Cache) (k : CKey) (v : List (Option Cell)),
    (∀ col2 ∈ L, 1 ≤ col2 ∧ k.1 ≠ col2) → lookupRow s k = some v →
    lookupRow (L.foldl (colStep img n rois) s) k = some v := by
  intro L
  induction L with
  | nil => intro s k v _ hv; exact hv
  | cons c0 L ih =>
    intro s k v h hv
    rw [List.foldl_cons]
    exact ih (colStep img n rois s c0) k v
      (fun c2 hc2 => h c2 (List.mem_cons_of_mem c0 hc2))
      (colStep_some (h c0 (List.mem_cons_self c0 L)).1
        (h c0 (List.mem_cons_self c0 L)).2 hv)

theorem range'_split_at {a b W : ℕ} (hab : a ≤ b) (hbW : b + 1 ≤ W) :
    List.range' a (W - a) =
      List.range' a (b - a) ++ b :: List.range' (b + 1) (W - (b + 1)) := by
  have h1 : List.range' a (b - a) ++ List.range' (a + (b - a)) (W - b) =
      List.range' a (W - b + (b - a)) := List.range'_append_1 a (b - a) (W - b)
  have h2 : a + (b - a) = b := by omega
  have h3 : W - b + (b - a) = W - a := by omega
  have h4 : W - b = W - (b + 1) + 1 := by omega
  rw [h2, h3] at h1
  rw [← h1, h4, List.range'_succ b (W - (b + 1)) 1]

/-- C2 (amended): when column `col - 1` holds no clusters, a cluster of
column `col` is never extended from any earlier column; it re-enters the
cache only through the lazy initialisation performed while column
`col + 1` is processed, so its final cached row is the fresh
`lazyRow` (length 1, score 0, no predecessor) — the path restarts. -/
theorem c2_amended {img : Img} {n : ℕ} {rois : List ℕ} {col : ℕ}
    {pc : Cluster}
    (hn : 1 ≤ n) (hcol : 1 ≤ col) (hw : col + 1 ≤ img.width - 1)
    (hempty : getClusters img (col - 1) = [])
    (hpc : pc ∈ getClusters img col)
    (hnext : getClusters img (col + 1) ≠ []) :
    lookupRow (dpCache img n rois) (col, pc) = some (lazyRow n pc) := by
  have hsplit1 : List.range' 1 (img.width - 1) =
      List.range' 1 col ++ (col + 1) ::
        List.range' (col + 2) (img.width - (col + 2)) := by
    have := range'_split_at (a := 1) (b := col + 1) (W := img.width)
      (by omega) (by omega)
    have h5 : col + 1 - 1 = col := by omega
    have h6 : col + 1 + 1 = col + 2 := by omega
    rw [h5, h6] at this
    exact this
  have hsplit2 : List.range' 1 col =
      List.range' 1 (col - 1) ++ [col] := by
    have := range'_split_at (a := 1) (b := col) (W := col + 1)
      (by omega) (by omega)
    rw [show col + 1 - 1 = col from by omega,
      show col + 1 - (col + 1) = 0 from by omega] at this
    simpa using this
  have hnone : lookupRow
      ((List.range' 1 col).foldl (colStep img n rois) ([] : Cache))
      (col, pc) = none := by
    rw [hsplit2, List.foldl_append, List.foldl_cons, List.foldl_nil,
      colStep_empty hempty,
      foldl_colStep_stable (List.range' 1 (col - 1)) [] (col, pc)
        (fun col2 hc2 => by
          rw [List.mem_range'_1] at hc2
          exact ⟨hc2.1, by omega, by omega⟩)]
    rfl
  have hprev : getClusters img (col + 1 - 1) ≠ [] := by
    rw [Nat.add_sub_cancel]
    intro h
    rw [h] at hpc
    exact List.not_mem_nil pc hpc
  obtain ⟨_, _, _, f4⟩ := @colStep_spec img n rois (col + 1) (by omega)
    hprev ((List.range' 1 col).foldl (colStep img n rois) [])
  have hmem2 := f4 hnext hn pc (by rw [Nat.add_sub_cancel]; exact hpc)
  rw [Nat.add_sub_cancel] at hmem2
  have hnv : nodeValRow
      ((List.range' 1 col).foldl (colStep img n rois) []) n (col + 1)
      pc = lazyRow n pc := by
    unfold nodeValRow
    rw [Nat.add_sub_cancel, hnone]
  rw [hnv] at hmem2
  unfold dpCache
  rw [hsplit1, List.foldl_append, List.foldl_cons]
  exact foldl_colStep_some _ _ _ _
    (fun col2 hc2 => by
      rw [List.mem_range'_1] at hc2
      exact ⟨by omega, by omega⟩) hmem2

theorem c2_amended_witness :
    lookupRow (dpCache img2 1 [4]) (3, [4]) = some (lazyRow 1 [4]) :=
  c2_amended (by decide) (by decide) (by decide) (by decide) (by decide)
    (by decide)

/-- C3: for a column `col ≥ 1` whose previous column holds clusters, the
cell the tracer records for `(col, cur)` at ROI index `roiI` belongs to a
predecessor `best` of column `col - 1` minimising
`score + |centre(best) - roi| + (width / 10) * gap(best, cur)`, the
scores being read from the final cache; the recorded cell stores
`y = centre(best)`, a link to `(col - 1, best)`, the predecessor's length
plus one, and the minimal cost.  When no earlier populated column exists,
the predecessor cells are exactly the lazily initialised
`(centre, none, 1, 0)` values, created at the moment of use. -/
theorem c3_transition_cost {img : Img} {n : ℕ} {rois : List ℕ}
    {col : ℕ} {cur : Cluster} {roiI : ℕ}
    (hcol : 1 ≤ col) (hw : col ≤ img.width - 1)
    (hprev : getClusters img (col - 1) ≠ [])
    (hcur : cur ∈ getClusters img col) (hroi : roiI < n) :
    (∃ best ∈ getClusters img (col - 1),
      (∀ pc ∈ getClusters img (col - 1),
        ((lookupCell (dpCache img n rois) (col - 1, best) roiI).getD
            dCell).score
          + |(ctrOf best : ℚ) - (rois.getD roiI 0 : ℚ)|
          + ((img.width : ℚ) / 10) * (gap best cur : ℚ) ≤
        ((lookupCell (dpCache img n rois) (col - 1, pc) roiI).getD
            dCell).score
          + |(ctrOf pc : ℚ) - (rois.getD roiI 0 : ℚ)|
          + ((img.width : ℚ) / 10) * (gap pc cur : ℚ)) ∧
      lookupCell (dpCache img n rois) (col, cur) roiI =
        some ⟨ctrOf best, some (col - 1, best),
          ((lookupCell (dpCache img n rois) (col - 1, best) roiI).getD
            dCell).len + 1,
          ((lookupCell (dpCache img n rois) (col - 1, best) roiI).getD
            dCell).score
            + |(ctrOf best : ℚ) - (rois.getD roiI 0 : ℚ)|
            + ((img.width : ℚ) / 10) * (gap best cur : ℚ)⟩) ∧
    ((col = 1 ∨ getClusters img (col - 2) = []) →
      ∀ pc ∈ getClusters img (col - 1),
        lookupCell (dpCache img n rois) (col - 1, pc) roiI =
          some (lazyCell pc)) := by
  have hWge : col + 1 ≤ img.width := by omega
  have hsplit : List.range' 1 (img.width - 1) =
      List.range' 1 (col - 1) ++ col ::
        List.range' (col + 1) (img.width - (col + 1)) :=
    range'_split_at hcol hWge
  have hF : dpCache img n rois =
      (List.range' (col + 1) (img.width - (col + 1))).foldl
        (colStep img n rois)
        (colStep img n rois
          ((List.range' 1 (col - 1)).foldl (colStep img n rois) [])
          col) := by
    unfold dpCache
    rw [hsplit, List.foldl_append, List.foldl_cons]
  obtain ⟨g1, _, _, g4⟩ := colStep_spec hcol hprev
    ((List.range' 1 (col - 1)).foldl (colStep img n rois) ([] : Cache))
  obtain ⟨row, hrow, hlen, hvals⟩ := g1 cur hcur
  have hclne : getClusters img col ≠ [] :=
    fun h => List.not_mem_nil cur (h ▸ hcur)
  have hn1 : 1 ≤ n := by omega
  have hFrow : lookupRow (dpCache img n rois) (col, cur) = some row := by
    rw [hF]
    exact foldl_colStep_some _ _ _ _ (fun c2 hc2 => by
      rw [List.mem_range'_1] at hc2
      exact ⟨by omega, by omega⟩) hrow
  have hFprev : ∀ pc ∈ getClusters img (col - 1),
      lookupRow (dpCache img n rois) (col - 1, pc) =
        some (nodeValRow ((List.range' 1 (col - 1)).foldl
          (colStep img n rois) []) n col pc) := by
    intro pc hpc
    rw [hF]
    exact foldl_colStep_some _ _ _ _ (fun c2 hc2 => by
      rw [List.mem_range'_1] at hc2
      exact ⟨by omega, by omega⟩) (g4 hclne hn1 pc hpc)
  have hFcell : ∀ pc ∈ getClusters img (col - 1),
      (lookupCell (dpCache img n rois) (col - 1, pc) roiI).getD dCell =
        nodeCellAt ((List.range' 1 (col - 1)).foldl (colStep img n rois)
          []) n col pc roiI := by
    intro pc hpc
    unfold lookupCell nodeCellAt
    rw [hFprev pc hpc]
    rfl
  have hcell2 : lookupCell (dpCache img n rois) (col, cur) roiI =
      specCell img.width n rois roiI col (getClusters img (col - 1)) cur
        ((List.range' 1 (col - 1)).foldl (colStep img n rois) []) := by
    unfold lookupCell
    rw [hFrow]
    exact hvals roiI hroi
  have hnenil : specCosts img.width n rois roiI col
      (getClusters img (col - 1)) cur
      ((List.range' 1 (col - 1)).foldl (colStep img n rois) []) ≠ [] :=
    specCosts_ne_nil hprev
  obtain ⟨best, hbest⟩ := bestOf_isSome hnenil
  have hbmem := bestOf_mem hbest
  rw [specCosts] at hbmem
  obtain ⟨pc0, hpc0, hpc0eq⟩ := List.mem_map.mp hbmem
  have hb1 : best.1 = pc0 := by rw [← hpc0eq]
  have hb2 : best.2 = (nodeCellAt ((List.range' 1 (col - 1)).foldl
      (colStep img n rois) []) n col pc0 roiI).score
      + |(ctrOf pc0 : ℚ) - (rois.getD roiI 0 : ℚ)|
      + ((img.width : ℚ) / 10) * (gap pc0 cur : ℚ) := by
    rw [← hpc0eq]
  have hbmem1 : best.1 ∈ getClusters img (col - 1) := by
    rw [hb1]
    exact hpc0
  constructor
  · refine ⟨best.1, hbmem1, ?_, ?_⟩
    · intro pc hpc
      rw [hFcell best.1 hbmem1, hFcell pc hpc]
      have hmm2 : (pc, (nodeCellAt ((List.range' 1 (col - 1)).foldl
          (colStep img n rois) []) n col pc roiI).score
          + |(ctrOf pc : ℚ) - (rois.getD roiI 0 : ℚ)|
          + ((img.width : ℚ) / 10) * (gap pc cur : ℚ)) ∈
          specCosts img.width n rois roiI col
            (getClusters img (col - 1)) cur
            ((List.range' 1 (col - 1)).foldl (colStep img n rois) []) := by
        rw [specCosts]
        exact List.mem_map_of_mem _ hpc
      have hle := bestOf_le hbest _ hmm2
      rw [hb1, ← hb2]
      exact hle
    · have hsc : specCell img.width n rois roiI col
          (getClusters img (col - 1)) cur
          ((List.range' 1 (col - 1)).foldl (colStep img n rois) []) =
          some ⟨ctrOf best.1, some (col - 1, best.1),
            (nodeCellAt ((List.range' 1 (col - 1)).foldl
              (colStep img n rois) []) n col best.1 roiI).len + 1,
            best.2⟩ := by
        unfold specCell
        rw [hbest]
      rw [hcell2, hsc, hFcell best.1 hbmem1, hb1, hb2]
  · intro h0 pc hpc
    have hpre_none : lookupRow ((List.range' 1 (col - 1)).foldl
        (colStep img n rois) []) (col - 1, pc) = none := by
      by_cases hc1 : col = 1
      · subst hc1
        rfl
      · have hc2 : 2 ≤ col := by omega
        have h2 : getClusters img (col - 2) = [] := by
          rcases h0 with h1 | h2
          · exact absurd h1 hc1
          · exact h2
        have hsp2 := range'_split_at (a := 1) (b := col - 1) (W := col)
          (by omega) (by omega)
        have e1 : col - 1 - 1 = col - 2 := by omega
        have e2 : col - 1 + 1 = col := by omega
        rw [e1, e2, Nat.sub_self, List.range'_zero] at hsp2
        rw [hsp2, List.foldl_append, List.foldl_cons, List.foldl_nil,
          colStep_empty (by rw [e1]; exact h2),
          foldl_colStep_stable _ _ _ (fun c2 hcc => by
            rw [List.mem_range'_1] at hcc
            exact ⟨hcc.1, by omega, by omega⟩)]
        rfl
    have hnv : nodeValRow ((List.range' 1 (col - 1)).foldl
        (colStep img n rois) []) n col pc = lazyRow n pc := by
      unfold nodeValRow
      rw [hpre_none]
    unfold lookupCell
    rw [hFprev pc hpc, hnv]
    show (lazyRow n pc).getD roiI none = some (lazyCell pc)
    unfold lazyRow
    rw [getD_replicate, if_pos hroi]

theorem c3_transition_cost_witness :
    (∃ best ∈ getClusters img2 0,
      (∀ pc ∈ getClusters img2 0,
        ((lookupCell (dpCache img2 1 [4]) (0, best) 0).getD dCell).score
          + |(ctrOf best : ℚ) - (([4] : List ℕ).getD 0 0 : ℚ)|
          + ((img2.width : ℚ) / 10) * (gap best [4] : ℚ) ≤
        ((lookupCell (dpCache img2 1 [4]) (0, pc) 0).getD dCell).score
          + |(ctrOf pc : ℚ) - (([4] : List ℕ).getD 0 0 : ℚ)|
          + ((img2.width : ℚ) / 10) * (gap pc [4] : ℚ)) ∧
      lookupCell (dpCache img2 1 [4]) (1, [4]) 0 =
        some ⟨ctrOf best, some (0, best),
          ((lookupCell (dpCache img2 1 [4]) (0, best) 0).getD
            dCell).len + 1,
          ((lookupCell (dpCache img2 1 [4]) (0, best) 0).getD
            dCell).score
            + |(ctrOf best : ℚ) - (([4] : List ℕ).getD 0 0 : ℚ)|
            + ((img2.width : ℚ) / 10) * (gap best [4] : ℚ)⟩) ∧
    ((1 = 1 ∨ getClusters img2 (1 - 2) = []) →
      ∀ pc ∈ getClusters img2 0,
        lookupCell (dpCache img2 1 [4]) (0, pc) 0 =
          some (lazyCell pc)) :=
  @c3_transition_cost img2 1 [4] 1 [4] 0 (by decide) (by decide)
    (by decide) (by decide) (by decide)

/-! The cache invariant behind backtracking: every recorded `prev` link
points one column to the left. -/

theorem prevOK_setKey {s : Cache} {k : CKey} {row : List (Option Cell)}
    (hP : PrevOK s)
    (hrow : ∀ i cell, row.getD i none = some cell →
      ∀ k2, cell.prev = some k2 → k2.1 + 1 = k.1) :
    PrevOK (setKey s k row) := by
  intro k' row' hl i cell hc k2 hp
  rw [lookupRow_setKey] at hl
  by_cases hk : k' = k
  · rw [if_pos hk] at hl
    have hr : row' = row := (Option.some.inj hl).symm
    subst hr
    rw [hk]
    exact hrow i cell hc k2 hp
  · rw [if_neg hk] at hl
    exact hP k' row' hl i cell hc k2 hp

theorem prevOK_updateCell {s : Cache} {k : CKey} {i : ℕ} {cell : Cell}
    (hP : PrevOK s)
    (hcell : ∀ k2, cell.prev = some k2 → k2.1 + 1 = k.1) :
    PrevOK (updateCell s k i cell) := by
  intro k' row' hl j cell' hc k2 hp
  rw [lookupRow_updateCell] at hl
  by_cases hk : k' = k
  · rw [if_pos hk] at hl
    cases hr : lookupRow s k with
    | none => rw [hr] at hl; cases hl
    | some r =>
      rw [hr] at hl
      have hrr : row' = r.set i (some cell) := (Option.some.inj hl).symm
      subst hrr
      by_cases hij : i = j
      · subst hij
        by_cases hlen : i < r.length
        · rw [getD_set_self r i (some cell) none hlen] at hc
          have hce : cell = cell' := Option.some.inj hc
          rw [hk]
          exact hcell k2 (by rw [hce]; exact hp)
        · rw [List.set_eq_of_length_le (by omega)] at hc
          rw [hk]
          exact hP k r hr i cell' hc k2 hp
      · rw [getD_set_ne r i j (some cell) none hij] at hc
        rw [hk]
        exact hP k r hr j cell' hc k2 hp
  · rw [if_neg hk] at hl
    exact hP k' row' hl j cell' hc k2 hp

theorem prevOK_ensureNode {s : Cache} {n col : ℕ} {pc : Cluster}
    (hP : PrevOK s) : PrevOK (ensureNode n s col pc) := by
  unfold ensureNode
  split
  · exact hP
  · refine prevOK_setKey hP ?_
    intro i cell hc k2 hp
    unfold lazyRow at hc
    rw [getD_replicate] at hc
    by_cases hi : i < n
    · rw [if_pos hi] at hc
      have hce : lazyCell pc = cell := Option.some.inj hc
      rw [← hce] at hp
      cases hp
    · rw [if_neg hi] at hc
      cases hc

theorem prevOK_costsGo {w n : ℕ} {rois : List ℕ} {roiI col : ℕ}
    {c : Cluster} :
    ∀ (pcs : List Cluster) (s : Cache) (acc : List (Cluster × ℚ)),
    PrevOK s → PrevOK (costsGo w n rois roiI col c pcs s acc).1 := by
  intro pcs
  induction pcs with
  | nil => intro s acc hP; exact hP
  | cons pc pcs ih =>
    intro s acc hP
    rw [costsGo]
    exact ih _ _ (prevOK_ensureNode hP)

theorem prevOK_roiStep {w n : ℕ} {rois : List ℕ} {col : ℕ}
    {prevCls : List Cluster} {c : Cluster} {s : Cache} {roiI : ℕ}
    (hcol : 1 ≤ col) (hP : PrevOK s) :
    PrevOK (roiStep w n rois col prevCls c s roiI) := by
  have hPr : PrevOK (costsFor w n rois roiI col prevCls c s).1 :=
    prevOK_costsGo prevCls s [] hP
  unfold roiStep
  dsimp only
  cases hb : bestOf (costsFor w n rois roiI col prevCls c s).2 with
  | none => exact hPr
  | some best =>
    refine prevOK_updateCell hPr ?_
    intro k2 hp
    have hk2 : (col - 1, best.1) = k2 := Option.some.inj hp
    rw [← hk2]
    show col - 1 + 1 = col
    omega

theorem prevOK_roiFold {w n : ℕ} {rois : List ℕ} {col : ℕ}
    {prevCls : List Cluster} {c : Cluster} (hcol : 1 ≤ col) :
    ∀ (L : List ℕ) (s : Cache), PrevOK s →
    PrevOK (L.foldl (roiStep w n rois col prevCls c) s) := by
  intro L
  induction L with
  | nil => intro s hP; exact hP
  | cons i L ih =>
    intro s hP
    rw [List.foldl_cons]
    exact ih _ (prevOK_roiStep hcol hP)

theorem prevOK_clusterStep {w n : ℕ} {rois : List ℕ} {col : ℕ}
    {prevCls : List Cluster} {s : Cache} {c : Cluster} (hcol : 1 ≤ col)
    (hP : PrevOK s) : PrevOK (clusterStep w n rois col prevCls s c) := by
  have hs1 : PrevOK (setKey s (col, c) (List.replicate n none)) := by
    refine prevOK_setKey hP ?_
    intro i cell hc k2 hp
    rw [getD_replicate] at hc
    split at hc <;> cases hc
  show PrevOK ((List.range n).foldl (roiStep w n rois col prevCls c)
    (setKey s (col, c) (List.replicate n none)))
  exact prevOK_roiFold hcol (List.range n) _ hs1

theorem prevOK_clusterFold {w n : ℕ} {rois : List ℕ} {col : ℕ}
    {prevCls : List Cluster} (hcol : 1 ≤ col) :
    ∀ (CL : List Cluster) (s : Cache), PrevOK s →
    PrevOK (CL.foldl (clusterStep w n rois col prevCls) s) := by
  intro CL
  induction CL with
  | nil => intro s hP; exact hP
  | cons c0 CL ih =>
    intro s hP
    rw [List.foldl_cons]
    exact ih _ (prevOK_clusterStep hcol hP)

theorem prevOK_colStep {img : Img} {n : ℕ} {rois : List ℕ} {s : Cache}
    {col : ℕ} (hcol : 1 ≤ col) (hP : PrevOK s) :
    PrevOK (colStep img n rois s col) := by
  unfold colStep
  dsimp only
  split
  · exact hP
  · exact prevOK_clusterFold hcol _ _ hP

theorem prevOK_nil : PrevOK ([] : Cache) := by
  intro k row hl
  cases hl

theorem prevOK_dpCache (img : Img) (n : ℕ) (rois : List ℕ) :
    PrevOK (dpCache img n rois) := by
  have hall : ∀ (L : List ℕ) (s : Cache), (∀ c2 ∈ L, 1 ≤ c2) →
      PrevOK s → PrevOK (L.foldl (colStep img n rois) s) := by
    intro L
    induction L with
    | nil => intro s _ hP; exact hP
    | cons c0 L ih =>
      intro s hL hP
      rw [List.foldl_cons]
      exact ih _ (fun c2 hc2 => hL c2 (List.mem_cons_of_mem c0 hc2))
        (prevOK_colStep (hL c0 (List.mem_cons_self c0 L)) hP)
  exact hall _ _
    (fun c2 hc2 => by rw [List.mem_range'_1] at hc2; omega) prevOK_nil

/-! Backtracking produces consecutive x-coordinates. -/

theorem walk_cons (s : Cache) (roiI : ℕ) (k : CKey) (f : ℕ) :
    walk s roiI (some k) (f + 1) =
      (⟨k.1, ((lookupCell s k roiI).getD dCell).y⟩, k.2) ::
        walk s roiI ((lookupCell s k roiI).getD dCell).prev f := rfl

theorem set_getD_self {α : Type} (l : List α) (i : ℕ) (d : α) :
    l.set i (l.getD i d) = l := by
  induction l generalizing i with
  | nil => rfl
  | cons x xs ih =>
    cases i with
    | zero => rfl
    | succ j =>
      show x :: xs.set j (xs.getD j d) = x :: xs
      rw [ih]

theorem map_x_set (l : List Pt) (p : ℕ) (y2 : ℕ) :
    (l.set p ⟨(l.getD p ⟨0, 0⟩).x, y2⟩).map Pt.x = l.map Pt.x := by
  by_cases hp : p < l.length
  · rw [List.map_set]
    have he : Pt.x ⟨(l.getD p ⟨0, 0⟩).x, y2⟩ = (l.map Pt.x).getD p 0 := by
      rw [getD_map_of_lt Pt.x l p 0 ⟨0, 0⟩ hp]
    rw [he, set_getD_self]
  · rw [List.set_eq_of_length_le (by omega)]

theorem foldl_set_y_map_x (roi : ℕ) (cls : List Cluster) :
    ∀ (pks : List ℕ) (rawS : List Pt),
    ((pks.foldl (fun acc p => acc.set p
      ⟨(acc.getD p ⟨0, 0⟩).x,
       farthestFrom roi (cls.getD (p - 1) [])⟩) rawS).map Pt.x) =
      rawS.map Pt.x := by
  intro pks
  induction pks with
  | nil => intro rawS; rfl
  | cons p pks ih =>
    intro rawS
    rw [List.foldl_cons, ih, map_x_set]

theorem walk_map_x {s : Cache} (hP : PrevOK s) (roiI : ℕ) :
    ∀ (fuel : ℕ) (k : CKey), k.1 < fuel →
    ∃ len, 1 ≤ len ∧ len ≤ k.1 + 1 ∧
      (walk s roiI (some k) fuel).map (fun e => e.1.x) =
        (List.range' (k.1 + 1 - len) len).reverse := by
  intro fuel
  induction fuel with
  | zero => intro k hk; exact absurd hk (Nat.not_lt_zero _)
  | succ f ih =>
    intro k hk
    cases hlc : lookupCell s k roiI with
    | none =>
      refine ⟨1, le_refl 1, by omega, ?_⟩
      rw [walk_cons, hlc]
      simp [walk, dCell, Nat.add_sub_cancel, List.range'_one]
    | some c0 =>
      cases hp : c0.prev with
      | none =>
        refine ⟨1, le_refl 1, by omega, ?_⟩
        rw [walk_cons, hlc]
        simp only [Option.getD_some]
        rw [hp]
        simp [walk, Nat.add_sub_cancel, List.range'_one]
      | some k2 =>
        have hrowex : ∃ row, lookupRow s k = some row ∧
            row.getD roiI none = some c0 := by
          unfold lookupCell at hlc
          cases hlr : lookupRow s k with
          | none => rw [hlr] at hlc; cases hlc
          | some row =>
            rw [hlr] at hlc
            exact ⟨row, rfl, hlc⟩
        obtain ⟨row, hlr, hrg⟩ := hrowex
        have hdec : k2.1 + 1 = k.1 := hP k row hlr roiI c0 hrg k2 hp
        have hk2 : k2.1 < f := by omega
        obtain ⟨len2, hl1, hl2, hmap⟩ := ih k2 hk2
        refine ⟨len2 + 1, by omega, by omega, ?_⟩
        rw [walk_cons, hlc]
        simp only [Option.getD_some]
        rw [hp, List.map_cons, hmap]
        have e1 : k.1 + 1 - (len2 + 1) = k.1 - len2 := by omega
        have e2 : k2.1 + 1 - len2 = k.1 - len2 := by omega
        have e3 : k.1 - len2 + len2 = k.1 := by omega
        rw [e1, e2, List.range'_1_concat, List.reverse_append, e3]
        rfl

theorem traceFor_ok_shape {s : Cache} {rois : List ℕ} {roiI : ℕ}
    {out : List Pt} (h : traceFor s rois roiI = .ok out) :
    ∃ (best : CKey) (pks : List ℕ),
      out = pks.foldl (fun acc p => acc.set p
        ⟨(acc.getD p ⟨0, 0⟩).x,
         farthestFrom (rois.getD roiI 0)
           (((walk s roiI (some best) (best.1 + 1)).reverse.map
             (fun e => e.2)).getD (p - 1) [])⟩)
        ((walk s roiI (some best) (best.1 + 1)).reverse.map
          (fun e => e.1)) := by
  unfold traceFor at h
  cases s with
  | nil => cases h
  | cons e0 rest =>
    dsimp only at h
    split at h
    · cases h
    · exact ⟨_, _, (Except.ok.inj h).symm⟩

theorem traceFor_ok_x {s : Cache} {rois : List ℕ} {roiI : ℕ}
    {out : List Pt} (hP : PrevOK s)
    (h : traceFor s rois roiI = .ok out) :
    ∃ a, out.map Pt.x = List.range' a out.length := by
  obtain ⟨best, pks, hout⟩ := traceFor_ok_shape h
  obtain ⟨len, hl1, hl2, hmap⟩ :=
    walk_map_x hP roiI (best.1 + 1) best (Nat.lt_succ_self _)
  have hmap2 : ((walk s roiI (some best) (best.1 + 1)).reverse.map
      (fun e => e.1)).map Pt.x =
      List.range' (best.1 + 1 - len) len := by
    rw [List.map_map]
    have hco : (Pt.x ∘ fun (e : Pt × Cluster) => e.1) =
        fun (e : Pt × Cluster) => e.1.x := rfl
    rw [hco, List.map_reverse, hmap, List.reverse_reverse]
  have hxeq : out.map Pt.x =
      List.range' (best.1 + 1 - len) len := by
    rw [hout, foldl_set_y_map_x, hmap2]
  have hlen : out.length = len := by
    have := congrArg List.length hxeq
    rw [List.length_map, List.length_range'] at this
    exact this
  exact ⟨best.1 + 1 - len, by rw [hlen]; exact hxeq⟩

theorem mapM_ok {α β : Type} {ε : Type} (f : α → Except ε β) :
    ∀ (L : List α) (out : List β), L.mapM f = .ok out →
    out.length = L.length ∧ ∀ b ∈ out, ∃ a ∈ L, f a = .ok b := by
  intro L
  induction L with
  | nil =>
    intro out h
    have hout : out = [] := by
      rw [List.mapM_nil] at h
      exact (Except.ok.inj h).symm
    subst hout
    exact ⟨rfl, fun b hb => absurd hb (List.not_mem_nil b)⟩
  | cons a L ih =>
    intro out h
    rw [List.mapM_cons] at h
    cases hfa : f a with
    | error e =>
      rw [hfa] at h
      cases h
    | ok b =>
      rw [hfa] at h
      cases hL : L.mapM f with
      | error e =>
        rw [hL] at h
        cases h
      | ok bs =>
        rw [hL] at h
        have hout : out = b :: bs := (Except.ok.inj h).symm
        subst hout
        obtain ⟨h1, h2⟩ := ih bs hL
        refine ⟨by rw [List.length_cons, h1, List.length_cons], ?_⟩
        intro b2 hb2
        rcases List.mem_cons.mp hb2 with hbb | hbb
        · exact ⟨a, List.mem_cons_self a L, by rw [← hbb] at hfa; exact hfa⟩
        · obtain ⟨a2, ha2, hfa2⟩ := h2 b2 hbb
          exact ⟨a2, List.mem_cons_of_mem a ha2, hfa2⟩

/-- C1 (amended): a successful extraction returns exactly `n` polylines
(`n = layout.rows + |rhythm|` at the Digitizer's call site), and every
polyline has consecutive, strictly increasing x-coordinates
`a, a + 1, ..., a + len - 1`; but the interval need not be the whole
chart width `{0, ..., chart_width - 1}`. -/
theorem c1_amended {img : Img} {n : ℕ} {sigs : List (List Pt)}
    (h : extractSignals img n = .ok sigs) :
    sigs.length = n ∧ ∀ sg ∈ sigs, ∃ a,
      sg.map Pt.x = List.range' a sg.length := by
  unfold extractSignals at h
  cases hroi : getRoi img n with
  | error e =>
    rw [hroi] at h
    cases h
  | ok rois =>
    rw [hroi] at h
    dsimp only at h
    obtain ⟨h1, h2⟩ := mapM_ok _ _ _ h
    refine ⟨by rw [h1, List.length_range], ?_⟩
    intro sg hsg
    obtain ⟨i, _, hfi⟩ := h2 sg hsg
    exact traceFor_ok_x (prevOK_dpCache img n rois) hfi

theorem c1_amended_witness :
    ([[⟨0, 5⟩, ⟨1, 5⟩]] : List (List Pt)).length = 1 ∧
    ∀ sg ∈ ([[⟨0, 5⟩, ⟨1, 5⟩]] : List (List Pt)), ∃ a,
      sg.map Pt.x = List.range' a sg.length :=
  @c1_amended img1 1 [[⟨0, 5⟩, ⟨1, 5⟩]] (by decide)

end Miner

